import Mathlib

/-!
Shallow embedding of the restricted arithmetic-expression pipeline of
`src/qr_bot.py` (classifier `looks_like_math`, normalization, CPython
`ast.parse(mode='eval')` on the reachable character repertoire, the
whitelisting interpreter `_eval` inside `_safe_eval_expr`, and the result
formatting of `handle_text`).

Modelling conventions:
* Python `int` is `ℤ` (arbitrary precision, faithful).
* Python `float` is idealized as an exact rational `ℚ`: IEEE-754 rounding,
  overflow to `inf` and `OverflowError` are artifacts of the binary float
  format and are not modelled.  Every concrete value appearing in a theorem
  below is exactly representable, so the idealization is conservative there.
* A float value that is not rational in the idealized semantics (it can only
  arise from `r ** q` with positive base and fractional exponent, e.g.
  `2**0.5`) is modelled by the payload-free constructor `vfloatNE`
  ("float, value not exactly tracked").  Arithmetic treats such a value as a
  positive real for sign- and zero-tests (true of the power that created it,
  an approximation for later compositions); no theorem below depends on the
  numeric content of such a value.
* A complex value (only reachable from a negative base raised to a
  fractional power, e.g. `(-1)**0.5`) is modelled by the payload-free
  constructor `vcomplex`; the claims only need its type tag.
* The parser models the CPython eval-mode tokenizer/grammar restricted to
  the characters that can survive the classifier plus normalization:
  digits, `.`, `+ - * / % ( ) ,`, whitespace.  Starred call arguments and
  starred tuple elements (`1(*2)`, `(*1,)`) and keyword-splat arguments are
  not modelled and map to a syntax error; CPython parses them to
  Call/Starred/Tuple nodes that `_eval` rejects, so the pipeline fails on
  them either way.
-/

namespace QRBot

/-! ## Python whitespace (the set matched by `re` class `\s` on `str`,
which is also the set stripped by `str.strip`). -/

/-- Python Unicode whitespace: the characters matched by the regex class
`\s` over `str` in CPython, equally the characters removed by `str.strip`. -/
def pyIsSpace (c : Char) : Bool :=
  c ∈ ['\t', '\n', '\x0b', '\x0c', '\r', '\x1c', '\x1d', '\x1e', '\x1f',
       ' ', '\x85', '\xa0', ' ', ' ', ' ', ' ', ' ',
       ' ', ' ', ' ', ' ', ' ', ' ', ' ',
       ' ', ' ', ' ', ' ', '　']

/-! ## Expression Classifier (`looks_like_math`, src/qr_bot.py lines 72-80) -/

/-- Characters of the regex character class in `_MATH_TOKEN_RE`
(src/qr_bot.py line 72): whitespace, digits, dot, the operator glyphs,
parentheses and comma. -/
def mathTokenChar (c : Char) : Bool :=
  pyIsSpace c || c.isDigit ||
  c ∈ ['.', '+', '-', '*', '/', '%', '(', ')', 'x', 'X', '×', '÷', ',', '^']

/-- Operator glyphs whose presence `looks_like_math` requires
(src/qr_bot.py line 80), in source order. -/
def opGlyphs : List Char := ['+', '-', '*', '×', 'x', 'X', '/', '÷', '%', '^']

/-- Model of `looks_like_math` (src/qr_bot.py lines 74-80): non-empty,
every character matches the token class, and at least one operator glyph
occurs.  The regex `^[...]+$` with a class containing `\s` full-matches a
string iff every character is in the class (the `$`-before-final-newline
quirk is absorbed because the newline itself is in the class). -/
def looksLikeMath (s : String) : Bool :=
  !s.data.isEmpty && s.data.all mathTokenChar &&
    opGlyphs.any (fun op => s.data.contains op)

/-! ## Normalization -/

/-- Python `str.strip()`: remove leading and trailing Unicode whitespace
(`handle_text`, src/qr_bot.py line 226). -/
def pyStrip (s : String) : String :=
  ⟨((s.data.dropWhile pyIsSpace).reverse.dropWhile pyIsSpace).reverse⟩

/-- Character-wise form of the replacement chain of `handle_text`
(src/qr_bot.py line 229): caret to power, letter multiplication signs to
`*`.  The chain of single-character `str.replace` calls is equivalent to
one character-wise pass because the patterns are distinct single characters
and no replacement output contains a later pattern character. -/
def normTextChar (c : Char) : List Char :=
  if c = '^' then ['*', '*']
  else if c = 'x' then ['*']
  else if c = 'X' then ['*']
  else [c]

/-- Model of the normalization in `handle_text` (src/qr_bot.py line 229). -/
def normalizeText (s : String) : String :=
  ⟨s.data.flatMap normTextChar⟩

/-- Character-wise form of the replacement chain of `_safe_eval_expr`
(src/qr_bot.py line 25): unicode multiplication and division signs and
dash variants to their ASCII equivalents.  All patterns and replacements
are single characters, so the chain is one character-wise map. -/
def normExprChar (c : Char) : Char :=
  if c = '×' then '*'
  else if c = '÷' then '/'
  else if c = '–' then '-'
  else if c = '−' then '-'
  else c

/-- Model of the normalization in `_safe_eval_expr` (src/qr_bot.py line 25). -/
def normalizeExpr (s : String) : String :=
  ⟨s.data.map normExprChar⟩

/-! ## Values and error kinds -/

/-- Error taxonomy of the evaluator.  `syntaxErr` models Python
`SyntaxError` (including its subclass `IndentationError`); `unsupported`
models the `ValueError`s raised by `_eval` (the spec's
UnsupportedConstructError); `zeroDiv` models `ZeroDivisionError` (the
spec's ArithmeticError); `typeErr` models the `TypeError` CPython raises
for `%` and `//` on a complex operand. -/
inductive EvalErr where
  | syntaxErr
  | unsupported
  | zeroDiv
  | typeErr
deriving DecidableEq, Repr

/-- Python numeric values reachable in `_eval`.  `vint` is a Python `int`;
`vfloat` a Python `float` idealized as an exact rational; `vfloatNE` a
float whose exact ideal value is not tracked (it arises as a fractional
power of a positive base and is treated as a positive real by sign tests);
`vcomplex` a `complex` (payload not tracked). -/
inductive PyVal where
  | vint : ℤ → PyVal
  | vfloat : ℚ → PyVal
  | vfloatNE : PyVal
  | vcomplex : PyVal
deriving DecidableEq, Repr

/-- Zero test used by Python before division-like operators: a value is
zero iff it is an int or float with value zero (a `vfloatNE` originates as
a positive power and is treated as nonzero; a `vcomplex` payload is not
tracked and is treated as nonzero). -/
def isZeroVal : PyVal → Bool
  | .vint n => n == 0
  | .vfloat q => q == 0
  | _ => false

/-- Discriminates the int/float tags from the complex tag (a `vfloatNE` is
a Python float). -/
def isIntOrFloat : PyVal → Bool
  | .vcomplex => false
  | _ => true

/-! ## Python arithmetic on these values (semantics of the binary
operations applied on src/qr_bot.py lines 46-59 and unary minus line 64).
Numeric promotion: complex absorbs, then float, then int. -/

/-- Python `+` on numbers. -/
def pyAdd : PyVal → PyVal → Except EvalErr PyVal
  | .vcomplex, _ | _, .vcomplex => .ok .vcomplex
  | .vfloatNE, _ | _, .vfloatNE => .ok .vfloatNE
  | .vint a, .vint b => .ok (.vint (a + b))
  | .vint a, .vfloat q => .ok (.vfloat (a + q))
  | .vfloat p, .vint b => .ok (.vfloat (p + b))
  | .vfloat p, .vfloat q => .ok (.vfloat (p + q))

/-- Python binary `-` on numbers. -/
def pySub : PyVal → PyVal → Except EvalErr PyVal
  | .vcomplex, _ | _, .vcomplex => .ok .vcomplex
  | .vfloatNE, _ | _, .vfloatNE => .ok .vfloatNE
  | .vint a, .vint b => .ok (.vint (a - b))
  | .vint a, .vfloat q => .ok (.vfloat (a - q))
  | .vfloat p, .vint b => .ok (.vfloat (p - b))
  | .vfloat p, .vfloat q => .ok (.vfloat (p - q))

/-- Python `*` on numbers. -/
def pyMul : PyVal → PyVal → Except EvalErr PyVal
  | .vcomplex, _ | _, .vcomplex => .ok .vcomplex
  | .vfloatNE, _ | _, .vfloatNE => .ok .vfloatNE
  | .vint a, .vint b => .ok (.vint (a * b))
  | .vint a, .vfloat q => .ok (.vfloat (a * q))
  | .vfloat p, .vint b => .ok (.vfloat (p * b))
  | .vfloat p, .vfloat q => .ok (.vfloat (p * q))

/-- Python `/` (true division): a zero divisor raises `ZeroDivisionError`
(also for a complex left operand); otherwise the result is a float (or
complex if a complex operand is involved); `int / int` is a float. -/
def pyDiv (a b : PyVal) : Except EvalErr PyVal :=
  if isZeroVal b then .error .zeroDiv
  else match a, b with
  | .vcomplex, _ | _, .vcomplex => .ok .vcomplex
  | .vfloatNE, _ | _, .vfloatNE => .ok .vfloatNE
  | .vint x, .vint y => .ok (.vfloat ((x : ℚ) / (y : ℚ)))
  | .vint x, .vfloat q => .ok (.vfloat ((x : ℚ) / q))
  | .vfloat p, .vint y => .ok (.vfloat (p / (y : ℚ)))
  | .vfloat p, .vfloat q => .ok (.vfloat (p / q))

/-- Floor-based rational remainder, the idealized semantics of Python
float `%`: the remainder follows the sign of the divisor. -/
def qfmod (a b : ℚ) : ℚ := a - b * (Rat.floor (a / b) : ℚ)

/-- Python `%`: a complex operand raises `TypeError` (complex numbers do
not support `%`, and CPython checks operand types before the zero test);
then a zero divisor raises `ZeroDivisionError`; `int % int` is the
floor-convention remainder `Int.fmod` (sign follows the divisor), float
`%` is the floor-based remainder. -/
def pyMod (a b : PyVal) : Except EvalErr PyVal :=
  match a, b with
  | .vcomplex, _ | _, .vcomplex => .error .typeErr
  | .vfloatNE, b => if isZeroVal b then .error .zeroDiv else .ok .vfloatNE
  | _, .vfloatNE => .ok .vfloatNE
  | .vint x, .vint y =>
    if y = 0 then .error .zeroDiv else .ok (.vint (Int.fmod x y))
  | .vint x, .vfloat q =>
    if q = 0 then .error .zeroDiv else .ok (.vfloat (qfmod (x : ℚ) q))
  | .vfloat p, .vint y =>
    if y = 0 then .error .zeroDiv else .ok (.vfloat (qfmod p (y : ℚ)))
  | .vfloat p, .vfloat q =>
    if q = 0 then .error .zeroDiv else .ok (.vfloat (qfmod p q))

/-- Python `//` (floor division): a complex operand raises `TypeError`;
a zero divisor raises `ZeroDivisionError`; `int // int` is `Int.fdiv`
(floor convention), and a float operand makes the result a float with
integral value. -/
def pyFloordiv (a b : PyVal) : Except EvalErr PyVal :=
  match a, b with
  | .vcomplex, _ | _, .vcomplex => .error .typeErr
  | .vfloatNE, b => if isZeroVal b then .error .zeroDiv else .ok .vfloatNE
  | _, .vfloatNE => .ok .vfloatNE
  | .vint x, .vint y =>
    if y = 0 then .error .zeroDiv else .ok (.vint (Int.fdiv x y))
  | .vint x, .vfloat q =>
    if q = 0 then .error .zeroDiv
    else .ok (.vfloat ((Rat.floor ((x : ℚ) / q) : ℤ) : ℚ))
  | .vfloat p, .vint y =>
    if y = 0 then .error .zeroDiv
    else .ok (.vfloat ((Rat.floor (p / (y : ℚ)) : ℤ) : ℚ))
  | .vfloat p, .vfloat q =>
    if q = 0 then .error .zeroDiv
    else .ok (.vfloat ((Rat.floor (p / q) : ℤ) : ℚ))

/-- Python `**`, following CPython: `int ** nonneg int` is an int;
`int ** negative int` is a float (zero base raises `ZeroDivisionError`);
a float exponent with integral value keeps the result real (float) even
for a negative base; a fractional exponent on a negative base produces a
complex number, on a zero base produces `0.0` (negative fractional
exponent raises `ZeroDivisionError`), on a positive base an irrational
positive float (`vfloatNE`); `0 ** complex` raises `ZeroDivisionError`,
any other base with a complex exponent gives a complex. -/
def pyPow (a b : PyVal) : Except EvalErr PyVal :=
  match b with
  | .vcomplex =>
    if isZeroVal a then .error .zeroDiv else .ok .vcomplex
  | .vfloatNE =>
    match a with
    | .vcomplex => .ok .vcomplex
    | .vfloatNE => .ok .vfloatNE
    | .vint m =>
      if m = 0 then .ok (.vfloat 0)
      else if m < 0 then .ok .vcomplex else .ok .vfloatNE
    | .vfloat q =>
      if q = 0 then .ok (.vfloat 0)
      else if q < 0 then .ok .vcomplex else .ok .vfloatNE
  | .vint n =>
    match a with
    | .vint m =>
      if 0 ≤ n then .ok (.vint (m ^ n.toNat))
      else if m = 0 then .error .zeroDiv
      else .ok (.vfloat ((m : ℚ) ^ n))
    | .vfloat q =>
      if q = 0 ∧ n < 0 then .error .zeroDiv
      else .ok (.vfloat (q ^ n))
    | .vfloatNE => if n = 0 then .ok (.vfloat 1) else .ok .vfloatNE
    | .vcomplex => .ok .vcomplex
  | .vfloat p =>
    if p.den = 1 then
      match a with
      | .vcomplex => .ok .vcomplex
      | .vfloatNE => if p = 0 then .ok (.vfloat 1) else .ok .vfloatNE
      | .vint m =>
        if m = 0 ∧ p < 0 then .error .zeroDiv
        else .ok (.vfloat ((m : ℚ) ^ p.num))
      | .vfloat q =>
        if q = 0 ∧ p < 0 then .error .zeroDiv
        else .ok (.vfloat (q ^ p.num))
    else
      match a with
      | .vcomplex => .ok .vcomplex
      | .vfloatNE => .ok .vfloatNE
      | .vint m =>
        if m = 0 then (if p < 0 then .error .zeroDiv else .ok (.vfloat 0))
        else if m < 0 then .ok .vcomplex
        else .ok .vfloatNE
      | .vfloat q =>
        if q = 0 then (if p < 0 then .error .zeroDiv else .ok (.vfloat 0))
        else if q < 0 then .ok .vcomplex
        else .ok .vfloatNE

/-- Python unary `-` on numbers (src/qr_bot.py line 64). -/
def pyNeg : PyVal → PyVal
  | .vint n => .vint (-n)
  | .vfloat q => .vfloat (-q)
  | .vfloatNE => .vfloatNE
  | .vcomplex => .vcomplex

/-! ## The restricted AST (the `ast` node kinds relevant to `_eval`) -/

/-- Constant payloads of `ast.Constant` reachable in eval mode.  `cbool`
is included for faithfulness of the `isinstance(value, (int, float))`
check (Python `bool` is a subclass of `int`); it is unreachable from any
string of the restricted repertoire. -/
inductive Const where
  | cint : ℤ → Const
  | cfloat : ℚ → Const
  | cbool : Bool → Const
  | cstr : String → Const
  | cnone : Const
  | cellipsis : Const
deriving DecidableEq, Repr

/-- Binary operator kinds of `ast.BinOp`.  The first seven are the
whitelist `allowed_binops` (src/qr_bot.py lines 30-32); the rest exist in
the Python grammar and fall through to the final `ValueError`. -/
inductive BOp where
  | add | sub | mul | div | mod | pow | floordiv
  | lshift | rshift | bitOr | bitXor | bitAnd | matmult
deriving DecidableEq, Repr

/-- Unary operator kinds of `ast.UnaryOp`; only `uadd` and `usub` are
whitelisted (src/qr_bot.py line 60). -/
inductive UOp where
  | uadd | usub | unot | invert
deriving DecidableEq, Repr

/-- Expression trees: the node kinds `ast.parse(mode='eval')` can produce
that matter to `_eval`.  Node kinds other than constants, binary and unary
operations and tuples carry only the payload needed to state the claims. -/
inductive Ast where
  | const : Const → Ast
  | binop : BOp → Ast → Ast → Ast
  | unop : UOp → Ast → Ast
  | tuple : List Ast → Ast
  | name : String → Ast
  | call : Ast → List Ast → Ast
  | attribute : Ast → String → Ast
  | subscript : Ast → Ast → Ast
  | listD : List Ast → Ast
  | setD : List Ast → Ast
  | dictD : List Ast → List Ast → Ast
  | compare : Ast → List Ast → Ast
  | boolop : List Ast → Ast
  | lambdaE : Ast → Ast
  | starred : Ast → Ast
deriving Repr

/-- Membership test in the `allowed_binops` tuple (src/qr_bot.py line 43). -/
def allowedBinop : BOp → Bool
  | .add | .sub | .mul | .div | .mod | .pow | .floordiv => true
  | _ => false

/-- Dispatch of the allowed binary operators, the if-chain of
src/qr_bot.py lines 46-59.  Operators outside the whitelist are never
dispatched (`evalAst` checks `allowedBinop` first, as line 43 does). -/
def applyBin : BOp → PyVal → PyVal → Except EvalErr PyVal
  | .add, a, b => pyAdd a b
  | .sub, a, b => pySub a b
  | .mul, a, b => pyMul a b
  | .div, a, b => pyDiv a b
  | .mod, a, b => pyMod a b
  | .pow, a, b => pyPow a b
  | .floordiv, a, b => pyFloordiv a b
  | _, _, _ => .error .unsupported

/-- Value of a constant leaf, fusing the `ast.Num` branch (line 37) and
the `ast.Constant` branch (lines 39-42): numeric constants evaluate to
themselves; `bool` passes the `isinstance(value, (int, float))` check
because Python `bool` is a subclass of `int`; everything else raises the
`ValueError` mapped to `unsupported`. -/
def constVal : Const → Except EvalErr PyVal
  | .cint n => .ok (.vint n)
  | .cfloat q => .ok (.vfloat q)
  | .cbool b => .ok (.vint (if b then 1 else 0))
  | _ => .error .unsupported

/-- Model of `_eval` (src/qr_bot.py lines 34-68).  A `BinOp` whose
operator is whitelisted evaluates its children left to right and applies
the operator; a non-whitelisted operator, a non-whitelisted unary
operator, a tuple (line 65), and every other node kind fall through to a
`ValueError`, mapped to `unsupported`, without evaluating children.  The
`ast.Expression` wrapper returned by `ast.parse` is unwrapped by the
caller (line 36 together with line 70). -/
def evalAst : Ast → Except EvalErr PyVal
  | .const c => constVal c
  | .binop op l r =>
    if allowedBinop op then
      match evalAst l with
      | .error e => .error e
      | .ok a =>
        match evalAst r with
        | .error e => .error e
        | .ok b => applyBin op a b
    else .error .unsupported
  | .unop u e =>
    match u with
    | .uadd => evalAst e
    | .usub =>
      match evalAst e with
      | .error err => .error err
      | .ok v => .ok (pyNeg v)
    | _ => .error .unsupported
  | _ => .error .unsupported

/-- Numeric-literal test on constants, matching what `_eval` accepts
(`isinstance(value, (int, float))`, with `bool` a subclass of `int`). -/
def numericConst : Const → Bool
  | .cint _ | .cfloat _ | .cbool _ => true
  | _ => false

/-- The unary operators whitelisted on src/qr_bot.py line 60. -/
def allowedUnop : UOp → Bool
  | .uadd | .usub => true
  | _ => false

/-- Trees built solely from numeric literal leaves, the seven whitelisted
binary operators and unary plus/minus: the whitelisted fragment of the
spec. -/
def pureArith : Ast → Bool
  | .const c => numericConst c
  | .binop op l r => allowedBinop op && pureArith l && pureArith r
  | .unop u e => allowedUnop u && pureArith e
  | _ => false

/-- Occurrence of the power operator in the whitelisted fragment. -/
def containsPow : Ast → Bool
  | .const _ => false
  | .binop op l r =>
    (match op with | .pow => true | _ => false) || containsPow l || containsPow r
  | .unop _ e => containsPow e
  | _ => false

/-! ## Tokenizer: the CPython eval-mode tokenizer on the reachable
character repertoire.  Space, tab and formfeed are skippable whitespace;
newline and carriage return end a logical line (ignored inside
parentheses, ignored on blank lines, otherwise emitted as a token that is
only legal trailing); a content line at depth 0 beginning with spaces or
tabs (after the last formfeed, which resets the column) is an
`IndentationError`, a subclass of `SyntaxError`; an integer literal with a
leading zero and a nonzero digit is a `SyntaxError`; `...` lexes to the
`Ellipsis` constant; every character outside the repertoire is a
`SyntaxError`. -/

/-- Tokens of the restricted repertoire. -/
inductive Tok where
  | intTok : ℤ → Tok
  | floatTok : ℚ → Tok
  | ellipsisTok : Tok
  | plusTok | minusTok | starTok | slashTok | percentTok
  | starstarTok | slashslashTok
  | lparenTok | rparenTok | commaTok | nlTok
deriving DecidableEq, Repr

/-- Value of a digit string. -/
def digitsVal (ds : List Char) : ℕ :=
  ds.foldl (fun acc c => 10 * acc + (c.toNat - 48)) 0

/-- Lex one numeric literal (maximal munch).  The input starts with a
digit, or with a dot followed by a digit.  Forms: `123`, `1.5`, `1.`,
`.5`.  A plain integer literal with a leading zero and some nonzero digit
is rejected (CPython: leading zeros in decimal integer literals are not
permitted); all-zero integers and float literals are unrestricted. -/
def lexNumber (cs : List Char) : Except Unit (Tok × List Char) :=
  let ip := cs.takeWhile Char.isDigit
  let r1 := cs.dropWhile Char.isDigit
  match r1 with
  | '.' :: r2 =>
    let fp := r2.takeWhile Char.isDigit
    let r3 := r2.dropWhile Char.isDigit
    .ok (.floatTok ((digitsVal ip : ℚ) + (digitsVal fp : ℚ) / ((10 : ℚ) ^ fp.length)), r3)
  | _ =>
    if ip.head? == some '0' && ip.any (fun c => c != '0') then .error ()
    else .ok (.intTok (digitsVal ip), r1)

/-- Prepend a token to a lexing result. -/
def consTok (t : Tok) : Except Unit (List Tok) → Except Unit (List Tok)
  | .error e => .error e
  | .ok ts => .ok (t :: ts)

/-- The tokenizer state machine.  `depth` is the open-parenthesis depth,
`atStart` whether we are at the start of a logical line at depth 0 (before
any token of the line), `pending` whether indentation characters were seen
since the line start (or since the last formfeed, which resets the
column).  Fuel decreases by one per step and each step consumes at least
one character. -/
def lex : Nat → List Char → Nat → Bool → Bool → Except Unit (List Tok)
  | _, [], _, _, _ => .ok []
  | 0, _ :: _, _, _, _ => .error ()
  | fuel + 1, c :: cs, depth, atStart, pending =>
    if c = ' ' ∨ c = '\t' then
      if depth = 0 ∧ atStart then lex fuel cs depth true true
      else lex fuel cs depth atStart pending
    else if c = '\x0c' then
      if depth = 0 ∧ atStart then lex fuel cs depth true false
      else lex fuel cs depth atStart pending
    else if c = '\n' ∨ c = '\r' then
      if 0 < depth then lex fuel cs depth atStart pending
      else if atStart then lex fuel cs depth true false
      else consTok .nlTok (lex fuel cs depth true false)
    else if pending ∧ depth = 0 ∧ atStart then .error ()
    else if c.isDigit then
      match lexNumber (c :: cs) with
      | .error e => .error e
      | .ok (t, rest) => consTok t (lex fuel rest depth false false)
    else if c = '.' then
      match cs with
      | c2 :: cs2 =>
        if c2.isDigit then
          match lexNumber (c :: cs) with
          | .error e => .error e
          | .ok (t, rest) => consTok t (lex fuel rest depth false false)
        else if c2 = '.' then
          match cs2 with
          | c3 :: cs3 =>
            if c3 = '.' then consTok .ellipsisTok (lex fuel cs3 depth false false)
            else .error ()
          | [] => .error ()
        else .error ()
      | [] => .error ()
    else if c = '*' then
      match cs with
      | c2 :: cs2 =>
        if c2 = '*' then consTok .starstarTok (lex fuel cs2 depth false false)
        else consTok .starTok (lex fuel (c2 :: cs2) depth false false)
      | [] => consTok .starTok (lex fuel [] depth false false)
    else if c = '/' then
      match cs with
      | c2 :: cs2 =>
        if c2 = '/' then consTok .slashslashTok (lex fuel cs2 depth false false)
        else consTok .slashTok (lex fuel (c2 :: cs2) depth false false)
      | [] => consTok .slashTok (lex fuel [] depth false false)
    else if c = '+' then consTok .plusTok (lex fuel cs depth false false)
    else if c = '-' then consTok .minusTok (lex fuel cs depth false false)
    else if c = '%' then consTok .percentTok (lex fuel cs depth false false)
    else if c = '(' then consTok .lparenTok (lex fuel cs (depth + 1) false false)
    else if c = ')' then consTok .rparenTok (lex fuel cs (depth - 1) false false)
    else if c = ',' then consTok .commaTok (lex fuel cs depth false false)
    else .error ()

/-- Tokenize a character list from the initial state. -/
def tokenize (cs : List Char) : Except Unit (List Tok) :=
  lex (cs.length + 1) cs 0 true false

/-! ## Parser: recursive descent for the eval-mode grammar restricted to
the repertoire.  Productions (left-recursion unrolled into chains):
testlist is a sum list separated by commas (a comma makes a tuple, with
optional trailing comma); sum is a left-associative chain of `+`/`-` over
terms; term a left-associative chain of `*`, `/`, `//`, `%` over factors;
factor is unary `+`/`-` applied to a factor, or a power; power is a
primary optionally followed by `**` and a factor (right associative, and
binding tighter than a unary sign on its left); primary is an atom
followed by call trailers; atom is a number, `...`, or a parenthesized
testlist (empty parentheses are the empty tuple). -/

/-- Leading comma splitter: commas separate testlist elements and call
arguments. -/
def splitComma : List Tok → Option (List Tok)
  | .commaTok :: r => some r
  | _ => none

/-- Leading open parenthesis (call trailer or group/tuple start). -/
def splitLparen : List Tok → Option (List Tok)
  | .lparenTok :: r => some r
  | _ => none

/-- Leading close parenthesis. -/
def splitRparen : List Tok → Option (List Tok)
  | .rparenTok :: r => some r
  | _ => none

/-- Leading power operator. -/
def splitStarstar : List Tok → Option (List Tok)
  | .starstarTok :: r => some r
  | _ => none

/-- Additive operator of a token. -/
def sumOp : Tok → Option BOp
  | .plusTok => some .add
  | .minusTok => some .sub
  | _ => none

/-- Multiplicative operator of a token. -/
def termOp : Tok → Option BOp
  | .starTok => some .mul
  | .slashTok => some .div
  | .slashslashTok => some .floordiv
  | .percentTok => some .mod
  | _ => none

/-- Unary operator of a token. -/
def unOpOf : Tok → Option UOp
  | .plusTok => some .uadd
  | .minusTok => some .usub
  | _ => none

/-- Constant atom denoted by a token, if any. -/
def atomConst : Tok → Option Const
  | .intTok n => some (.cint n)
  | .floatTok q => some (.cfloat q)
  | .ellipsisTok => some .cellipsis
  | _ => none

/-- Tokens that end a testlist after a trailing comma: end of input, a
close parenthesis, or a line end. -/
def testlistEnd : List Tok → Bool
  | [] => true
  | .rparenTok :: _ => true
  | .nlTok :: _ => true
  | _ => false

/-- Tokens that end a call argument list after a trailing comma. -/
def argsEnd : List Tok → Bool
  | .rparenTok :: _ => true
  | _ => false

mutual

def pTestlist : Nat → List Tok → Except Unit (Ast × List Tok)
  | 0, _ => .error ()
  | f + 1, toks =>
    match pSum f toks with
    | .error e => .error e
    | .ok (t, r) =>
      match splitComma r with
      | some r2 => pTestlistRest f [t] r2
      | none => .ok (t, r)

def pTestlistRest : Nat → List Ast → List Tok → Except Unit (Ast × List Tok)
  | 0, _, _ => .error ()
  | f + 1, acc, toks =>
    if testlistEnd toks then .ok (.tuple acc.reverse, toks)
    else
      match pSum f toks with
      | .error e => .error e
      | .ok (t, r) =>
        match splitComma r with
        | some r2 => pTestlistRest f (t :: acc) r2
        | none => .ok (.tuple (t :: acc).reverse, r)

def pSum : Nat → List Tok → Except Unit (Ast × List Tok)
  | 0, _ => .error ()
  | f + 1, toks =>
    match pTerm f toks with
    | .error e => .error e
    | .ok (t, r) => pSumRest f t r

def pSumRest : Nat → Ast → List Tok → Except Unit (Ast × List Tok)
  | 0, _, _ => .error ()
  | f + 1, acc, toks =>
    match toks with
    | [] => .ok (acc, [])
    | tk :: r =>
      match sumOp tk with
      | some op =>
        match pTerm f r with
        | .error e => .error e
        | .ok (t2, r2) => pSumRest f (.binop op acc t2) r2
      | none => .ok (acc, tk :: r)

def pTerm : Nat → List Tok → Except Unit (Ast × List Tok)
  | 0, _ => .error ()
  | f + 1, toks =>
    match pFactor f toks with
    | .error e => .error e
    | .ok (t, r) => pTermRest f t r

def pTermRest : Nat → Ast → List Tok → Except Unit (Ast × List Tok)
  | 0, _, _ => .error ()
  | f + 1, acc, toks =>
    match toks with
    | [] => .ok (acc, [])
    | tk :: r =>
      match termOp tk with
      | some op =>
        match pFactor f r with
        | .error e => .error e
        | .ok (t2, r2) => pTermRest f (.binop op acc t2) r2
      | none => .ok (acc, tk :: r)

def pFactor : Nat → List Tok → Except Unit (Ast × List Tok)
  | 0, _ => .error ()
  | f + 1, toks =>
    match toks with
    | [] => pPower f []
    | tk :: r =>
      match unOpOf tk with
      | some u =>
        match pFactor f r with
        | .error e => .error e
        | .ok (t, r2) => .ok (.unop u t, r2)
      | none => pPower f (tk :: r)

def pPower : Nat → List Tok → Except Unit (Ast × List Tok)
  | 0, _ => .error ()
  | f + 1, toks =>
    match pPrimary f toks with
    | .error e => .error e
    | .ok (b, r) =>
      match splitStarstar r with
      | some r2 =>
        match pFactor f r2 with
        | .error e => .error e
        | .ok (e2, r3) => .ok (.binop .pow b e2, r3)
      | none => .ok (b, r)

def pPrimary : Nat → List Tok → Except Unit (Ast × List Tok)
  | 0, _ => .error ()
  | f + 1, toks =>
    match pAtom f toks with
    | .error e => .error e
    | .ok (a, r) => pTrailers f a r

def pTrailers : Nat → Ast → List Tok → Except Unit (Ast × List Tok)
  | 0, _, _ => .error ()
  | f + 1, t, toks =>
    match splitLparen toks with
    | some r =>
      match splitRparen r with
      | some r2 => pTrailers f (.call t []) r2
      | none =>
        match pArgs f r with
        | .error e => .error e
        | .ok (args, r2) =>
          match splitRparen r2 with
          | some r3 => pTrailers f (.call t args) r3
          | none => .error ()
    | none => .ok (t, toks)

def pArgs : Nat → List Tok → Except Unit (List Ast × List Tok)
  | 0, _ => .error ()
  | f + 1, toks =>
    match pSum f toks with
    | .error e => .error e
    | .ok (t, r) =>
      match splitComma r with
      | some r2 => pArgsRest f [t] r2
      | none => .ok ([t], r)

def pArgsRest : Nat → List Ast → List Tok → Except Unit (List Ast × List Tok)
  | 0, _, _ => .error ()
  | f + 1, acc, toks =>
    if argsEnd toks then .ok (acc.reverse, toks)
    else
      match pSum f toks with
      | .error e => .error e
      | .ok (t, r) =>
        match splitComma r with
        | some r2 => pArgsRest f (t :: acc) r2
        | none => .ok ((t :: acc).reverse, r)

def pAtom : Nat → List Tok → Except Unit (Ast × List Tok)
  | 0, _ => .error ()
  | f + 1, toks =>
    match toks with
    | [] => .error ()
    | tk :: r =>
      match atomConst tk with
      | some c => .ok (.const c, r)
      | none =>
        if tk = Tok.lparenTok then
          match splitRparen r with
          | some r2 => .ok (.tuple [], r2)
          | none =>
            match pTestlist f r with
            | .error e => .error e
            | .ok (t, r2) =>
              match splitRparen r2 with
              | some r3 => .ok (t, r3)
              | none => .error ()
        else .error ()

end

/-- Parse a token list as eval input: one testlist, followed only by
trailing newline tokens.  The fuel bound is generous: every parser call
either consumes a token before recursing at the same grammar level or
descends the fixed eight-level grammar hierarchy. -/
def pEval (toks : List Tok) : Except Unit Ast :=
  match pTestlist (10 * toks.length + 10) toks with
  | .error e => .error e
  | .ok (t, rest) => if rest.all (· == Tok.nlTok) then .ok t else .error ()

/-- Model of `ast.parse(s, mode='eval')` (src/qr_bot.py line 28) on the
reachable repertoire, with the `ast.Expression` wrapper already unwrapped
(as `_eval` does on line 36).  Any tokenizer or parser failure is the
`SyntaxError` kind. -/
def pyParse (s : String) : Except EvalErr Ast :=
  match tokenize s.data with
  | .error _ => .error .syntaxErr
  | .ok toks =>
    match pEval toks with
    | .error _ => .error .syntaxErr
    | .ok t => .ok t

/-! ## The pipeline -/

/-- Model of `_safe_eval_expr` (src/qr_bot.py lines 19-70): normalize the
unicode operators, parse, evaluate the tree. -/
def safeEvalExpr (s : String) : Except EvalErr PyVal :=
  match pyParse (normalizeExpr s) with
  | .error e => .error e
  | .ok t => evalAst t

/-- Model of the calculator path of `handle_text` (src/qr_bot.py lines
226-230): strip the message, classify, normalize caret and letter
multiplication, evaluate.  `none` models the non-math fallback reply. -/
def handleText (text : String) : Option (Except EvalErr PyVal) :=
  let t := pyStrip text
  if looksLikeMath t then some (safeEvalExpr (normalizeText t)) else none

/-! ## Result presentation (src/qr_bot.py lines 231-236) -/

/-- Round-half-to-even to an integer, the idealized semantics of Python
`round`. -/
def roundHalfEven (q : ℚ) : ℤ :=
  let f : ℤ := Rat.floor q
  let r : ℚ := q - (f : ℚ)
  if r < 1/2 then f
  else if 1/2 < r then f + 1
  else if f % 2 = 0 then f else f + 1

/-- Idealized `round(q, 5)`. -/
def roundTo5 (q : ℚ) : ℚ :=
  ((roundHalfEven (q * 100000) : ℤ) : ℚ) / 100000

/-- Model of the formatting step of `handle_text` (src/qr_bot.py lines
231-236): an `int` result is shown unchanged; a `float` result that
`is_integer()` is converted to `int`; any other float is rounded to five
decimal places; a complex result is not a float and passes through
unchanged.  This is presentation only: `handleText` above never feeds the
rounded value back into evaluation. -/
def presentVal : PyVal → PyVal
  | .vint n => .vint n
  | .vfloat q => if q.den = 1 then .vint q.num else .vfloat (roundTo5 q)
  | .vfloatNE => .vfloatNE
  | .vcomplex => .vcomplex

deriving instance DecidableEq for Except

/-! ## Claim-side formulation of the classifier (following the words of
the spec rather than the source, for the refinement claim C5) -/

/-- The claim's allowed character set: digits, whitespace, decimal point,
parentheses, comma, and the operator glyphs. -/
def allowedCharClaim (c : Char) : Prop :=
  c.isDigit = true ∨ pyIsSpace c = true ∨
  c ∈ ['.', '(', ')', ',', '+', '-', '*', '/', '%', '^', 'x', 'X', '×', '÷']

/-- The classifier contract as the claim states it: non-empty, not
whitespace-only, every character allowed, and at least one operator glyph
present. -/
def classifierClaim (s : String) : Prop :=
  s.data ≠ [] ∧ ¬(∀ c ∈ s.data, pyIsSpace c = true) ∧
  (∀ c ∈ s.data, allowedCharClaim c) ∧ (∃ c ∈ s.data, c ∈ opGlyphs)

/-- The parser moved from `toks` to the suffix `rest` without consuming a
comma token. -/
def NoCommaPre (toks rest : List Tok) : Prop :=
  ∃ pre, toks = pre ++ rest ∧ Tok.commaTok ∉ pre

/-- Statement bundle for the fuel induction, one conjunct per parser
function. -/
def ParserNC (f : Nat) : Prop :=
  (∀ toks t rest, pTestlist f toks = .ok (t, rest) →
      pureArith t = true → NoCommaPre toks rest)
  ∧ (∀ acc toks t rest, pTestlistRest f acc toks = .ok (t, rest) →
      ∃ es, t = Ast.tuple es)
  ∧ (∀ toks t rest, pSum f toks = .ok (t, rest) →
      pureArith t = true → NoCommaPre toks rest)
  ∧ (∀ acc toks t rest, pSumRest f acc toks = .ok (t, rest) →
      pureArith t = true → pureArith acc = true ∧ NoCommaPre toks rest)
  ∧ (∀ toks t rest, pTerm f toks = .ok (t, rest) →
      pureArith t = true → NoCommaPre toks rest)
  ∧ (∀ acc toks t rest, pTermRest f acc toks = .ok (t, rest) →
      pureArith t = true → pureArith acc = true ∧ NoCommaPre toks rest)
  ∧ (∀ toks t rest, pFactor f toks = .ok (t, rest) →
      pureArith t = true → NoCommaPre toks rest)
  ∧ (∀ toks t rest, pPower f toks = .ok (t, rest) →
      pureArith t = true → NoCommaPre toks rest)
  ∧ (∀ toks t rest, pPrimary f toks = .ok (t, rest) →
      pureArith t = true → NoCommaPre toks rest)
  ∧ (∀ t0 toks t rest, pTrailers f t0 toks = .ok (t, rest) →
      pureArith t = true → t = t0 ∧ rest = toks)
  ∧ (∀ toks t rest, pAtom f toks = .ok (t, rest) →
      pureArith t = true → NoCommaPre toks rest)

mutual

/-- Occurrence of a tuple node anywhere in a tree, including inside the
element lists of the collection and call nodes. -/
def containsTuple : Ast → Bool
  | .tuple _ => true
  | .const _ => false
  | .name _ => false
  | .binop _ l r => containsTuple l || containsTuple r
  | .unop _ e => containsTuple e
  | .call f args => containsTuple f || containsTupleList args
  | .attribute o _ => containsTuple o
  | .subscript o i => containsTuple o || containsTuple i
  | .listD es => containsTupleList es
  | .setD es => containsTupleList es
  | .dictD ks vs => containsTupleList ks || containsTupleList vs
  | .compare l rs => containsTuple l || containsTupleList rs
  | .boolop vs => containsTupleList vs
  | .lambdaE b => containsTuple b
  | .starred e => containsTuple e

/-- Occurrence of a tuple node in any tree of a list. -/
def containsTupleList : List Ast → Bool
  | [] => false
  | t :: ts => containsTuple t || containsTupleList ts

end

/-! ## Helper lemmas -/

/-- Evaluation only succeeds on the whitelisted fragment: a tree
containing any non-whitelisted node kind never evaluates to a value. -/
theorem evalAst_ok_imp_pure : ∀ (t : Ast) (v : PyVal),
    evalAst t = .ok v → pureArith t = true
  | .const c, v => by cases c <;> simp [evalAst, constVal, pureArith, numericConst]
  | .binop op l r, v => by
    intro h
    simp only [evalAst] at h
    by_cases hop : allowedBinop op = true
    · rw [if_pos hop] at h
      cases hl : evalAst l with
      | error e => rw [hl] at h; exact absurd h (by simp)
      | ok a =>
        rw [hl] at h
        cases hr : evalAst r with
        | error e => rw [hr] at h; exact absurd h (by simp)
        | ok b =>
          rw [hr] at h
          have h1 := evalAst_ok_imp_pure l a hl
          have h2 := evalAst_ok_imp_pure r b hr
          simp [pureArith, hop, h1, h2]
    · rw [if_neg hop] at h; exact absurd h (by simp)
  | .unop u e, v => by
    intro h
    cases u with
    | uadd =>
      have he : evalAst e = .ok v := h
      have := evalAst_ok_imp_pure e v he
      simp [pureArith, allowedUnop, this]
    | usub =>
      simp only [evalAst] at h
      cases he : evalAst e with
      | error err => rw [he] at h; exact absurd h (by simp)
      | ok w =>
        rw [he] at h
        have := evalAst_ok_imp_pure e w he
        simp [pureArith, allowedUnop, this]
    | unot => exact absurd h (by simp [evalAst])
    | invert => exact absurd h (by simp [evalAst])
  | .tuple es, v => by intro h; exact absurd h (by simp [evalAst])
  | .name s, v => by intro h; exact absurd h (by simp [evalAst])
  | .call f args, v => by intro h; exact absurd h (by simp [evalAst])
  | .attribute o a, v => by intro h; exact absurd h (by simp [evalAst])
  | .subscript o i, v => by intro h; exact absurd h (by simp [evalAst])
  | .listD es, v => by intro h; exact absurd h (by simp [evalAst])
  | .setD es, v => by intro h; exact absurd h (by simp [evalAst])
  | .dictD ks vs, v => by intro h; exact absurd h (by simp [evalAst])
  | .compare l rs, v => by intro h; exact absurd h (by simp [evalAst])
  | .boolop vs, v => by intro h; exact absurd h (by simp [evalAst])
  | .lambdaE b, v => by intro h; exact absurd h (by simp [evalAst])
  | .starred e, v => by intro h; exact absurd h (by simp [evalAst])

theorem pyAdd_notComplex {a b v : PyVal} (h : pyAdd a b = .ok v)
    (ha : isIntOrFloat a = true) (hb : isIntOrFloat b = true) :
    isIntOrFloat v = true := by
  cases v with
  | vint n => rfl
  | vfloat q => rfl
  | vfloatNE => rfl
  | vcomplex => cases a <;> cases b <;> simp_all [pyAdd, isIntOrFloat]

theorem pySub_notComplex {a b v : PyVal} (h : pySub a b = .ok v)
    (ha : isIntOrFloat a = true) (hb : isIntOrFloat b = true) :
    isIntOrFloat v = true := by
  cases v with
  | vint n => rfl
  | vfloat q => rfl
  | vfloatNE => rfl
  | vcomplex => cases a <;> cases b <;> simp_all [pySub, isIntOrFloat]

theorem pyMul_notComplex {a b v : PyVal} (h : pyMul a b = .ok v)
    (ha : isIntOrFloat a = true) (hb : isIntOrFloat b = true) :
    isIntOrFloat v = true := by
  cases v with
  | vint n => rfl
  | vfloat q => rfl
  | vfloatNE => rfl
  | vcomplex => cases a <;> cases b <;> simp_all [pyMul, isIntOrFloat]

theorem pyDiv_notComplex {a b v : PyVal} (h : pyDiv a b = .ok v)
    (ha : isIntOrFloat a = true) (hb : isIntOrFloat b = true) :
    isIntOrFloat v = true := by
  cases v with
  | vint n => rfl
  | vfloat q => rfl
  | vfloatNE => rfl
  | vcomplex =>
    unfold pyDiv at h
    split at h
    · exact absurd h (by simp)
    · cases a <;> cases b <;> simp_all [isIntOrFloat]

theorem pyMod_notComplex {a b v : PyVal} (h : pyMod a b = .ok v)
    (ha : isIntOrFloat a = true) (hb : isIntOrFloat b = true) :
    isIntOrFloat v = true := by
  cases v with
  | vint n => rfl
  | vfloat q => rfl
  | vfloatNE => rfl
  | vcomplex =>
    cases a <;> cases b <;> simp only [pyMod] at h <;>
      (try split at h) <;> simp_all [isIntOrFloat]

theorem pyFloordiv_notComplex {a b v : PyVal} (h : pyFloordiv a b = .ok v)
    (ha : isIntOrFloat a = true) (hb : isIntOrFloat b = true) :
    isIntOrFloat v = true := by
  cases v with
  | vint n => rfl
  | vfloat q => rfl
  | vfloatNE => rfl
  | vcomplex =>
    cases a <;> cases b <;> simp only [pyFloordiv] at h <;>
      (try split at h) <;> simp_all [isIntOrFloat]

/-- In a power-free tree, evaluation can never produce a complex value:
every operator except `**` preserves the int/float tags. -/
theorem evalAst_noPow_notComplex : ∀ (t : Ast) (v : PyVal),
    evalAst t = .ok v → containsPow t = false → isIntOrFloat v = true
  | .const c, v => by
    intro h hp
    cases c with
    | cint n =>
      simp only [evalAst, constVal] at h; injection h with h2; rw [← h2]; rfl
    | cfloat q =>
      simp only [evalAst, constVal] at h; injection h with h2; rw [← h2]; rfl
    | cbool b =>
      simp only [evalAst, constVal] at h; injection h with h2; rw [← h2]; rfl
    | cstr s => exact absurd h (by simp [evalAst, constVal])
    | cnone => exact absurd h (by simp [evalAst, constVal])
    | cellipsis => exact absurd h (by simp [evalAst, constVal])
  | .binop op l r, v => by
    intro h hp
    simp only [evalAst] at h
    by_cases hop : allowedBinop op = true
    · rw [if_pos hop] at h
      cases hl : evalAst l with
      | error e => rw [hl] at h; exact absurd h (by simp)
      | ok a =>
        rw [hl] at h
        cases hr : evalAst r with
        | error e => rw [hr] at h; exact absurd h (by simp)
        | ok b =>
          rw [hr] at h
          simp only [containsPow, Bool.or_eq_false_iff] at hp
          obtain ⟨⟨hnp, hpl⟩, hpr⟩ := hp
          have ha := evalAst_noPow_notComplex l a hl hpl
          have hb := evalAst_noPow_notComplex r b hr hpr
          cases op <;> simp only [applyBin] at h
          · exact pyAdd_notComplex h ha hb
          · exact pySub_notComplex h ha hb
          · exact pyMul_notComplex h ha hb
          · exact pyDiv_notComplex h ha hb
          · exact pyMod_notComplex h ha hb
          · exact absurd hnp (by simp)
          · exact pyFloordiv_notComplex h ha hb
          all_goals exact absurd h (by simp)
    · rw [if_neg hop] at h; exact absurd h (by simp)
  | .unop u e, v => by
    intro h hp
    cases u with
    | uadd => exact evalAst_noPow_notComplex e v h (by simpa [containsPow] using hp)
    | usub =>
      simp only [evalAst] at h
      cases he : evalAst e with
      | error err => rw [he] at h; exact absurd h (by simp)
      | ok w =>
        rw [he] at h
        have hw := evalAst_noPow_notComplex e w he (by simpa [containsPow] using hp)
        cases w with
        | vint n => injection h with h2; rw [← h2]; rfl
        | vfloat q => injection h with h2; rw [← h2]; rfl
        | vfloatNE => injection h with h2; rw [← h2]; rfl
        | vcomplex => exact absurd hw (by simp [isIntOrFloat])
    | unot => exact absurd h (by simp [evalAst])
    | invert => exact absurd h (by simp [evalAst])
  | .tuple es, v => by intro h _; exact absurd h (by simp [evalAst])
  | .name s, v => by intro h _; exact absurd h (by simp [evalAst])
  | .call f args, v => by intro h _; exact absurd h (by simp [evalAst])
  | .attribute o a, v => by intro h _; exact absurd h (by simp [evalAst])
  | .subscript o i, v => by intro h _; exact absurd h (by simp [evalAst])
  | .listD es, v => by intro h _; exact absurd h (by simp [evalAst])
  | .setD es, v => by intro h _; exact absurd h (by simp [evalAst])
  | .dictD ks vs, v => by intro h _; exact absurd h (by simp [evalAst])
  | .compare l rs, v => by intro h _; exact absurd h (by simp [evalAst])
  | .boolop vs, v => by intro h _; exact absurd h (by simp [evalAst])
  | .lambdaE b, v => by intro h _; exact absurd h (by simp [evalAst])
  | .starred e, v => by intro h _; exact absurd h (by simp [evalAst])

/-- The floor-convention remainder is nonpositive for a negative divisor. -/
theorem fmod_nonpos_of_neg : ∀ (a : ℤ) {b : ℤ}, b < 0 → Int.fmod a b ≤ 0 := by
  intro a b hb
  match a, b with
  | _, Int.ofNat n => exact absurd hb (Int.not_lt.mpr (Int.ofNat_zero_le n))
  | Int.ofNat 0, Int.negSucc n => simp [Int.fmod]
  | Int.ofNat (m + 1), Int.negSucc n =>
    show Int.subNatNat (m % (n + 1)) n ≤ 0
    rw [Int.subNatNat_eq_coe]
    have : m % (n + 1) < n + 1 := Nat.mod_lt _ (by omega)
    omega
  | Int.negSucc m, Int.negSucc n =>
    show -((((m + 1) % (n + 1) : ℕ) : ℤ)) ≤ 0
    omega

theorem mathTokenChar_iff_claim (c : Char) :
    mathTokenChar c = true ↔ allowedCharClaim c := by
  simp only [mathTokenChar, allowedCharClaim, Bool.or_eq_true,
    decide_eq_true_eq]
  constructor
  · rintro ((h | h) | h)
    · exact Or.inr (Or.inl h)
    · exact Or.inl h
    · simp only [List.mem_cons, List.not_mem_nil, or_false] at h ⊢
      tauto
  · rintro (h | h | h)
    · exact Or.inl (Or.inr h)
    · exact Or.inl (Or.inl h)
    · simp only [List.mem_cons, List.not_mem_nil, or_false] at h ⊢
      tauto

theorem opGlyphs_not_space : ∀ g ∈ opGlyphs, pyIsSpace g = false := by decide

/-! ## Claim C5 -/

/-- C5 — confirmed.  The classifier accepts a string iff it is non-empty,
not whitespace-only, every character belongs to the allowed set (digits,
whitespace, decimal point, parentheses, comma, and the operator glyphs),
and at least one operator glyph occurs; hence any string with a character
outside the set, and any bare (possibly parenthesized) number, is
rejected. -/
theorem c5_theorem (s : String) : looksLikeMath s = true ↔ classifierClaim s := by
  simp only [looksLikeMath, Bool.and_eq_true, Bool.not_eq_true',
    List.isEmpty_eq_false, List.all_eq_true, List.any_eq_true, classifierClaim]
  constructor
  · rintro ⟨⟨hne, hall⟩, g, hgop, hgmem⟩
    have hgs : g ∈ s.data := by
      simpa [List.elem_iff] using hgmem
    refine ⟨hne, ?_, ?_, ⟨g, hgs, hgop⟩⟩
    · intro hws
      have h1 := hws g hgs
      have h2 := opGlyphs_not_space g hgop
      rw [h1] at h2
      exact absurd h2 (by simp)
    · intro c hc
      exact (mathTokenChar_iff_claim c).mp (hall c hc)
  · rintro ⟨hne, _, hall, g, hgs, hgop⟩
    refine ⟨⟨hne, fun c hc => (mathTokenChar_iff_claim c).mpr (hall c hc)⟩,
      ⟨g, hgop, ?_⟩⟩
    simpa [List.elem_iff] using hgs

/-- C5 witness: the concrete shape of the iff at the input `"2+2"`. -/
theorem c5_witness : classifierClaim "2+2" :=
  ( c5_theorem "2+2").mp (by decide)

/-! ## Claim C7 -/

/-- C7 — confirmed.  `"5^3"` (caret normalized to power) evaluates to the
integer 125 and is presented unchanged; `"12*(3+4)/2"` evaluates to the
float 42 (true division produces a float) and the presentation step shows
the mathematically integral value as the integer 42; a non-integral float
is rounded to five decimal places by the presentation step only (the
evaluation results above are unrounded). -/
theorem c7_theorem :
    handleText "5^3" = some (.ok (.vint 125))
    ∧ presentVal (.vint 125) = .vint 125
    ∧ handleText "12*(3+4)/2" = some (.ok (.vfloat 42))
    ∧ presentVal (.vfloat 42) = .vint 42
    ∧ presentVal (.vfloat (157 / 25)) = .vfloat (157 / 25)
    ∧ presentVal (.vfloat (1 / 3)) = .vfloat (33333 / 100000) := by
  set_option maxRecDepth 8000 in
  refine ⟨by with_unfolding_all rfl, rfl, by with_unfolding_all rfl,
    by with_unfolding_all rfl, by with_unfolding_all rfl,
    by with_unfolding_all rfl⟩

/-! ## Claim C8 -/

/-- C8 — confirmed.  On integer operands with a nonzero divisor, the
evaluator's `%` returns the floor-convention remainder: it satisfies
`a = b * (a // b) + r` and is zero or has the sign of the divisor; in
particular `"-7 % 5"` evaluates to 3 and `"17 % 5"` to 2. -/
theorem c8_theorem :
    (∀ a b : ℤ, b ≠ 0 →
      evalAst (.binop .mod (.const (.cint a)) (.const (.cint b)))
          = .ok (.vint (Int.fmod a b))
        ∧ a = b * Int.fdiv a b + Int.fmod a b
        ∧ (Int.fmod a b = 0 ∨ (0 < b ∧ 0 < Int.fmod a b)
            ∨ (b < 0 ∧ Int.fmod a b < 0)))
    ∧ handleText "-7 % 5" = some (.ok (.vint 3))
    ∧ handleText "17 % 5" = some (.ok (.vint 2)) := by
  refine ⟨?_, by decide, by decide⟩
  intro a b hb
  refine ⟨?_, ?_, ?_⟩
  · simp [evalAst, constVal, allowedBinop, applyBin, pyMod, hb]
  · have h := Int.fdiv_add_fmod a b
    omega
  · rcases lt_trichotomy b 0 with h | h | h
    · have h1 := fmod_nonpos_of_neg a h
      omega
    · exact absurd h hb
    · have h1 := Int.fmod_nonneg' a h
      omega

/-- C8 witness: the general statement instantiated at `-7 % 5`. -/
theorem c8_witness :
    evalAst (.binop .mod (.const (.cint (-7))) (.const (.cint 5)))
        = .ok (.vint (Int.fmod (-7) 5))
      ∧ (-7 : ℤ) = 5 * Int.fdiv (-7) 5 + Int.fmod (-7) 5
      ∧ (Int.fmod (-7) 5 = 0 ∨ ((0 : ℤ) < 5 ∧ 0 < Int.fmod (-7) 5)
          ∨ ((5 : ℤ) < 0 ∧ Int.fmod (-7) 5 < 0)) :=
  c8_theorem.1 (-7) 5 (by decide)

/-! ## Claim C1 -/

/-- C1 — counterexample to the claim as stated.  The classifier-accepted
input `"1/0+(2,3)"` parses to a tree that contains a disallowed node (a
tuple), yet the whole operation fails with the ArithmeticError kind, not
with UnsupportedConstructError: `_eval` is a single left-to-right pass, so
the zero division in the left operand is raised before the tuple is
examined. -/
theorem c1_counterexample :
    pyParse (normalizeExpr (normalizeText (pyStrip "1/0+(2,3)")))
        = .ok (.binop .add (.binop .div (.const (.cint 1)) (.const (.cint 0)))
            (.tuple [.const (.cint 2), .const (.cint 3)]))
    ∧ pureArith (.binop .add (.binop .div (.const (.cint 1)) (.const (.cint 0)))
        (.tuple [.const (.cint 2), .const (.cint 3)])) = false
    ∧ handleText "1/0+(2,3)" = some (.error .zeroDiv)
    ∧ EvalErr.zeroDiv ≠ EvalErr.unsupported :=
  ⟨rfl, by decide, by decide, by decide⟩

/-- C1 — amended.  Evaluation succeeds only on trees built solely from
numeric literal leaves, the seven whitelisted binary operators and unary
plus/minus; a tree containing any disallowed node kind always fails with
no partial result (with the UnsupportedConstructError kind unless an
error of another kind arises earlier in left-to-right evaluation order);
name, call and attribute nodes are rejected outright, never executed, and
a payload such as `__import__(os).system(x)` is already rejected by the
classifier. -/
theorem c1_theorem :
    (∀ t v, evalAst t = .ok v → pureArith t = true)
    ∧ (∀ t, pureArith t = false → ∃ e, evalAst t = .error e)
    ∧ (∀ s, evalAst (.name s) = .error .unsupported)
    ∧ (∀ f args, evalAst (.call f args) = .error .unsupported)
    ∧ (∀ o attr, evalAst (.attribute o attr) = .error .unsupported)
    ∧ handleText "__import__(os).system(x)" = none := by
  refine ⟨evalAst_ok_imp_pure, ?_, fun s => rfl, fun f args => rfl,
    fun o attr => rfl, by decide⟩
  intro t hp
  cases hev : evalAst t with
  | error e => exact ⟨e, rfl⟩
  | ok v =>
    have := evalAst_ok_imp_pure t v hev
    rw [this] at hp
    exact absurd hp (by simp)

/-- C1 witness: the general statement applied to a concrete pure tree and
to a concrete disallowed tree. -/
theorem c1_witness :
    pureArith (.const (.cint 2)) = true
    ∧ (∃ e, evalAst (.tuple []) = .error e) :=
  ⟨c1_theorem.1 (.const (.cint 2)) (.vint 2) rfl,
    c1_theorem.2.1 (.tuple []) rfl⟩

/-! ## Claim C2 -/

/-- C2 — counterexample to the claim as stated.  `"-2**2"` parses with
the power binding tighter than the leading unary minus, so it denotes
`-(2**2)` and evaluates to -4, not 4. -/
theorem c2_counterexample :
    pyParse "-2**2"
        = .ok (.unop .usub (.binop .pow (.const (.cint 2)) (.const (.cint 2))))
    ∧ handleText "-2**2" = some (.ok (.vint (-4)))
    ∧ (some (Except.ok (PyVal.vint (-4))) : Option (Except EvalErr PyVal))
        ≠ some (.ok (.vint 4)) :=
  ⟨rfl, by decide, by decide⟩

/-- C2 — amended.  Parsing follows CPython precedence: `*`, `/`, `%`,
`//` bind tighter than `+`/`-`; the power operator binds tighter than the
multiplicative operators and is right-associative; the other binary
operators are left-associative; parentheses override precedence; unary
plus/minus bind tighter than the multiplicative operators but looser than
a power on their right, so a leading minus applies to the whole power
(`"-2**2"` is `-(2**2) = -4`) while in exponent position a unary sign
binds tighter (`"2**-1"` parses). -/
theorem c2_theorem :
    pyParse "1+2*3"
        = .ok (.binop .add (.const (.cint 1))
            (.binop .mul (.const (.cint 2)) (.const (.cint 3))))
    ∧ pyParse "2*3**2"
        = .ok (.binop .mul (.const (.cint 2))
            (.binop .pow (.const (.cint 3)) (.const (.cint 2))))
    ∧ pyParse "2**3**2"
        = .ok (.binop .pow (.const (.cint 2))
            (.binop .pow (.const (.cint 3)) (.const (.cint 2))))
    ∧ pyParse "1-2-3"
        = .ok (.binop .sub
            (.binop .sub (.const (.cint 1)) (.const (.cint 2)))
            (.const (.cint 3)))
    ∧ pyParse "8/4/2"
        = .ok (.binop .div
            (.binop .div (.const (.cint 8)) (.const (.cint 4)))
            (.const (.cint 2)))
    ∧ pyParse "(1+2)*3"
        = .ok (.binop .mul
            (.binop .add (.const (.cint 1)) (.const (.cint 2)))
            (.const (.cint 3)))
    ∧ pyParse "-2*3"
        = .ok (.binop .mul (.unop .usub (.const (.cint 2))) (.const (.cint 3)))
    ∧ pyParse "2**-1"
        = .ok (.binop .pow (.const (.cint 2)) (.unop .usub (.const (.cint 1))))
    ∧ pyParse "-2**2"
        = .ok (.unop .usub (.binop .pow (.const (.cint 2)) (.const (.cint 2))))
    ∧ handleText "-2**2" = some (.ok (.vint (-4))) :=
  ⟨rfl, rfl, rfl, rfl, rfl, rfl, rfl, rfl, rfl, by decide⟩

/-! ## Claim C3 -/

/-- C3 — counterexample to the claim as stated.  On the
classifier-accepted input `"(-1)^0.5"` the evaluator succeeds with a
complex value, which is neither an integer nor a floating-point number. -/
theorem c3_counterexample :
    handleText "(-1)^0.5" = some (.ok .vcomplex)
    ∧ isIntOrFloat .vcomplex = false :=
  ⟨by with_unfolding_all rfl, by decide⟩

/-- C3 — amended.  Every successful evaluation returns an int, a float,
or a complex number; a complex result can only arise through the power
operator (a negative base raised to a fractional exponent), so on any
power-free tree the result is an int or float. -/
theorem c3_theorem :
    ∀ t v, evalAst t = .ok v →
      (isIntOrFloat v = true ∨ v = .vcomplex)
      ∧ (containsPow t = false → isIntOrFloat v = true) := by
  intro t v h
  refine ⟨?_, fun hp => evalAst_noPow_notComplex t v h hp⟩
  cases v <;> simp [isIntOrFloat]

/-- C3 witness: the general statement instantiated at a concrete tree. -/
theorem c3_witness :
    (isIntOrFloat (.vint 4) = true ∨ (PyVal.vint 4) = .vcomplex)
    ∧ (containsPow (.const (.cint 4)) = false → isIntOrFloat (.vint 4) = true) :=
  c3_theorem (.const (.cint 4)) (.vint 4) rfl

/-! ## Claim C4 -/

/-- C4 — counterexample to the claim as stated.  `"(-1)^0.5%0"` is a
classifier-accepted mod operation whose right operand evaluates to zero,
yet it fails with the TypeError kind, not ArithmeticError: the left
operand is complex, and CPython rejects `%` on complex operands before
any zero-divisor check. -/
theorem c4_counterexample :
    handleText "(-1)^0.5%0" = some (.error .typeErr)
    ∧ EvalErr.typeErr ≠ EvalErr.zeroDiv :=
  ⟨by with_unfolding_all rfl, by decide⟩

/-- C4 — amended.  A div, mod or floordiv whose right operand evaluates
to zero makes the whole expression fail: with the ArithmeticError kind,
except that mod and floordiv with a complex left operand fail with the
TypeError kind instead; `"10/0"` fails with ArithmeticError, and no
division returns infinity or NaN (the value domain has none). -/
theorem c4_theorem :
    (∀ l r vl z, evalAst l = .ok vl → evalAst r = .ok z → isZeroVal z = true →
        evalAst (.binop .div l r) = .error .zeroDiv
      ∧ evalAst (.binop .mod l r)
          = .error (if vl = .vcomplex then .typeErr else .zeroDiv)
      ∧ evalAst (.binop .floordiv l r)
          = .error (if vl = .vcomplex then .typeErr else .zeroDiv))
    ∧ handleText "10/0" = some (.error .zeroDiv) := by
  refine ⟨?_, by decide⟩
  intro l r vl z hl hr hz
  have e1 : evalAst (.binop .div l r) = pyDiv vl z := by
    simp [evalAst, allowedBinop, hl, hr, applyBin]
  have e2 : evalAst (.binop .mod l r) = pyMod vl z := by
    simp [evalAst, allowedBinop, hl, hr, applyBin]
  have e3 : evalAst (.binop .floordiv l r) = pyFloordiv vl z := by
    simp [evalAst, allowedBinop, hl, hr, applyBin]
  refine ⟨?_, ?_, ?_⟩
  · rw [e1]; unfold pyDiv; rw [if_pos hz]
  · rw [e2]
    cases z with
    | vint n =>
      have hn : n = 0 := by simpa [isZeroVal] using hz
      subst hn
      cases vl <;> simp [pyMod, isZeroVal]
    | vfloat q =>
      have hq : q = 0 := by simpa [isZeroVal] using hz
      subst hq
      cases vl <;> simp [pyMod, isZeroVal]
    | vfloatNE => simp [isZeroVal] at hz
    | vcomplex => simp [isZeroVal] at hz
  · rw [e3]
    cases z with
    | vint n =>
      have hn : n = 0 := by simpa [isZeroVal] using hz
      subst hn
      cases vl <;> simp [pyFloordiv, isZeroVal]
    | vfloat q =>
      have hq : q = 0 := by simpa [isZeroVal] using hz
      subst hq
      cases vl <;> simp [pyFloordiv, isZeroVal]
    | vfloatNE => simp [isZeroVal] at hz
    | vcomplex => simp [isZeroVal] at hz

/-- C4 witness: the general statement instantiated at `1 / 0`. -/
theorem c4_witness :
    evalAst (.binop .div (.const (.cint 1)) (.const (.cint 0)))
      = .error .zeroDiv :=
  ( c4_theorem.1 (.const (.cint 1)) (.const (.cint 0)) (.vint 1) (.vint 0)
    rfl rfl (by decide)).1

/-! ## Claim C6 -/

/-- C6 — counterexample to the claim as stated.  The classifier-accepted
input `"(-1)^0.5%2"` fails with the TypeError kind, which lies outside
the taxonomy {SyntaxError, UnsupportedConstructError, ArithmeticError}
the claim allows. -/
theorem c6_counterexample :
    handleText "(-1)^0.5%2" = some (.error .typeErr)
    ∧ EvalErr.typeErr ≠ EvalErr.syntaxErr
    ∧ EvalErr.typeErr ≠ EvalErr.unsupported
    ∧ EvalErr.typeErr ≠ EvalErr.zeroDiv :=
  ⟨by with_unfolding_all rfl, by decide, by decide, by decide⟩

/-- C6 — amended.  For every classifier-accepted input the evaluator is
total into a four-kind error taxonomy: it returns a numeric value or
fails with SyntaxError, UnsupportedConstructError, ArithmeticError, or
TypeError (the last for mod/floordiv on a complex operand); no other
outcome exists.  (In the idealized value domain there is no float
overflow; CPython's OverflowError is an IEEE-754 artifact outside this
model.) -/
theorem c6_theorem :
    ∀ s, looksLikeMath (pyStrip s) = true →
      ∃ r : Except EvalErr PyVal, handleText s = some r ∧
        ((∃ v, r = .ok v) ∨ r = .error .syntaxErr ∨ r = .error .unsupported
          ∨ r = .error .zeroDiv ∨ r = .error .typeErr) := by
  intro s h
  refine ⟨safeEvalExpr (normalizeText (pyStrip s)), ?_, ?_⟩
  · simp only [handleText, h, if_true]
  · cases hv : safeEvalExpr (normalizeText (pyStrip s)) with
    | ok v => exact Or.inl ⟨v, rfl⟩
    | error e => cases e <;> simp

/-- C6 witness: the totality statement instantiated at `"2+2"`. -/
theorem c6_witness :
    ∃ r : Except EvalErr PyVal, handleText "2+2" = some r ∧
      ((∃ v, r = .ok v) ∨ r = .error .syntaxErr ∨ r = .error .unsupported
        ∨ r = .error .zeroDiv ∨ r = .error .typeErr) :=
  c6_theorem "2+2" (by decide)

/-! ## Machinery for claim C9: a token stream beginning with a `*` or
`**` token cannot start an expression, so the parser fails closed. -/

theorem pAtom_starHead (f : Nat) (hd : Tok) (tl : List Tok)
    (h : hd = Tok.starTok ∨ hd = Tok.starstarTok) :
    pAtom f (hd :: tl) = .error () := by
  cases f with
  | zero => rfl
  | succ f => rcases h with h | h <;> subst h <;> rfl

theorem pPrimary_starHead (f : Nat) (hd : Tok) (tl : List Tok)
    (h : hd = Tok.starTok ∨ hd = Tok.starstarTok) :
    pPrimary f (hd :: tl) = .error () := by
  cases f with
  | zero => rfl
  | succ f => simp [pPrimary, pAtom_starHead f hd tl h]

theorem pPower_starHead (f : Nat) (hd : Tok) (tl : List Tok)
    (h : hd = Tok.starTok ∨ hd = Tok.starstarTok) :
    pPower f (hd :: tl) = .error () := by
  cases f with
  | zero => rfl
  | succ f => simp [pPower, pPrimary_starHead f hd tl h]

theorem pFactor_starHead (f : Nat) (hd : Tok) (tl : List Tok)
    (h : hd = Tok.starTok ∨ hd = Tok.starstarTok) :
    pFactor f (hd :: tl) = .error () := by
  cases f with
  | zero => rfl
  | succ f =>
    rcases h with h | h <;> subst h <;>
      simpa [pFactor] using pPower_starHead f _ tl (by simp)

theorem pTerm_starHead (f : Nat) (hd : Tok) (tl : List Tok)
    (h : hd = Tok.starTok ∨ hd = Tok.starstarTok) :
    pTerm f (hd :: tl) = .error () := by
  cases f with
  | zero => rfl
  | succ f => simp [pTerm, pFactor_starHead f hd tl h]

theorem pSum_starHead (f : Nat) (hd : Tok) (tl : List Tok)
    (h : hd = Tok.starTok ∨ hd = Tok.starstarTok) :
    pSum f (hd :: tl) = .error () := by
  cases f with
  | zero => rfl
  | succ f => simp [pSum, pTerm_starHead f hd tl h]

theorem pTestlist_starHead (f : Nat) (hd : Tok) (tl : List Tok)
    (h : hd = Tok.starTok ∨ hd = Tok.starstarTok) :
    pTestlist f (hd :: tl) = .error () := by
  cases f with
  | zero => rfl
  | succ f => simp [pTestlist, pSum_starHead f hd tl h]

theorem pEval_starHead (hd : Tok) (tl : List Tok)
    (h : hd = Tok.starTok ∨ hd = Tok.starstarTok) :
    pEval (hd :: tl) = .error () := by
  simp [pEval, pTestlist_starHead _ hd tl h]

/-- Lexing a non-empty all-star character list succeeds and yields only
`*` and `**` tokens. -/
theorem lex_star : ∀ (f : Nat) (cs : List Char) (d : Nat) (a : Bool),
    (∀ c ∈ cs, c = '*') → cs.length ≤ f →
    ∃ ts : List Tok, lex f cs d a false = .ok ts ∧
      (∀ t ∈ ts, t = Tok.starTok ∨ t = Tok.starstarTok) ∧
      (cs = [] ↔ ts = []) := by
  intro f
  induction f with
  | zero =>
    intro cs d a hall hlen
    have hnil : cs = [] := List.eq_nil_of_length_eq_zero (Nat.le_zero.mp hlen)
    subst hnil
    exact ⟨[], rfl, by simp, by simp⟩
  | succ f ih =>
    intro cs d a hall hlen
    cases cs with
    | nil => exact ⟨[], rfl, by simp, by simp⟩
    | cons c cs2 =>
      have hc : c = '*' := hall c (by simp)
      subst hc
      cases cs2 with
      | nil =>
        refine ⟨[Tok.starTok], ?_, by simp, by simp⟩
        show consTok Tok.starTok (lex f [] d false false) = .ok [Tok.starTok]
        cases f <;> rfl
      | cons c2 cs3 =>
        have hc2 : c2 = '*' := hall c2 (by simp)
        subst hc2
        obtain ⟨ts, hts, hshape, hnil⟩ :=
          ih cs3 d false (fun c hc => hall c (by simp [hc]))
            (by simp only [List.length_cons] at hlen ⊢; omega)
        refine ⟨Tok.starstarTok :: ts, ?_, ?_, by simp⟩
        · show consTok Tok.starstarTok (lex f cs3 d false false)
            = .ok (Tok.starstarTok :: ts)
          rw [hts]
          rfl
        · intro t ht
          rcases List.mem_cons.mp ht with h | h
          · exact Or.inr h
          · exact hshape t h

/-- Character-wise: normalizing a string of letter multiplication signs
yields a string of stars of the same length. -/
theorem normText_allx : ∀ l : List Char, (∀ c ∈ l, c = 'x' ∨ c = 'X') →
    l.flatMap normTextChar = l.map (fun _ => '*') := by
  intro l
  induction l with
  | nil => intro h; rfl
  | cons c l2 ih =>
    intro h
    have hc := h c (by simp)
    have h2 := ih (fun c hc => h c (by simp [hc]))
    rcases hc with hc | hc <;> subst hc <;>
      simp only [List.flatMap_cons, List.map_cons, h2] <;> rfl

/-- The unicode-operator normalization is the identity on all-star
strings. -/
theorem normExpr_allstar : ∀ l : List Char, (∀ c ∈ l, c = '*') →
    l.map normExprChar = l := by
  intro l
  induction l with
  | nil => intro h; rfl
  | cons c l2 ih =>
    intro h
    have hc := h c (by simp)
    subst hc
    have h2 := ih (fun c hc => h c (by simp [hc]))
    simp only [List.map_cons, h2]
    rfl

theorem dropWhile_eq_self_of_not {p : Char → Bool} :
    ∀ l : List Char, (∀ c ∈ l, p c = false) → l.dropWhile p = l := by
  intro l
  induction l with
  | nil => intro h; rfl
  | cons c l2 ih =>
    intro h
    have hc := h c (by simp)
    simp [List.dropWhile, hc]

/-- Stripping is the identity on strings with no whitespace at all. -/
theorem pyStrip_eq_self {s : String} (h : ∀ c ∈ s.data, pyIsSpace c = false) :
    pyStrip s = s := by
  obtain ⟨d⟩ := s
  show String.mk (((d.dropWhile pyIsSpace).reverse.dropWhile pyIsSpace).reverse) = String.mk d
  rw [dropWhile_eq_self_of_not d h,
    dropWhile_eq_self_of_not d.reverse (fun c hc => h c (List.mem_reverse.mp hc)),
    List.reverse_reverse]

/-! ## Claim C9 -/

/-- C9 — confirmed.  Any non-empty string consisting only of the letters
`x`/`X` (for example `"x"`) is accepted by the classifier, and its
evaluation then fails closed at the parse step with the SyntaxError kind:
the normalization turns it into a string of `*`/`**` operators, which
cannot start an expression. -/
theorem c9_theorem :
    ∀ s : String, s.data ≠ [] → (∀ c ∈ s.data, c = 'x' ∨ c = 'X') →
      looksLikeMath s = true ∧ handleText s = some (.error .syntaxErr) := by
  intro s hne hall
  have hnospace : ∀ c ∈ s.data, pyIsSpace c = false := by
    intro c hc
    rcases hall c hc with h | h <;> subst h <;> decide
  have hcl : looksLikeMath s = true := by
    have b1 : (!s.data.isEmpty) = true := by
      rw [Bool.not_eq_true', List.isEmpty_eq_false]
      exact hne
    have b2 : s.data.all mathTokenChar = true := by
      rw [List.all_eq_true]
      intro c hc
      rcases hall c hc with h | h <;> subst h <;> decide
    have b3 : opGlyphs.any (fun op => s.data.contains op) = true := by
      rw [List.any_eq_true]
      obtain ⟨c0, rest, hs⟩ := List.exists_cons_of_ne_nil hne
      have hc0 : c0 = 'x' ∨ c0 = 'X' := hall c0 (by rw [hs]; simp)
      refine ⟨c0, ?_, ?_⟩
      · rcases hc0 with h | h <;> subst h <;> decide
      · have : c0 ∈ s.data := by rw [hs]; simp
        simpa [List.elem_iff] using this
    unfold looksLikeMath
    rw [b1, b2, b3]
    rfl
  refine ⟨hcl, ?_⟩
  rw [handleText]
  rw [pyStrip_eq_self hnospace, hcl]
  simp only [if_true]
  -- the normalized text is a non-empty string of stars
  have hstars : (normalizeText s).data = s.data.map (fun _ => '*') := by
    show s.data.flatMap normTextChar = _
    exact normText_allx s.data hall
  have hallstar : ∀ c ∈ (normalizeText s).data, c = '*' := by
    rw [hstars]; intro c hc
    obtain ⟨a, _, ha⟩ := List.mem_map.mp hc
    exact ha.symm
  have hexprid : (normalizeExpr (normalizeText s)).data = (normalizeText s).data := by
    show (normalizeText s).data.map normExprChar = _
    exact normExpr_allstar _ hallstar
  -- tokenize: only star tokens, non-empty
  obtain ⟨ts, hts, hshape, hnilp⟩ :=
    lex_star ((normalizeExpr (normalizeText s)).data.length + 1)
      (normalizeExpr (normalizeText s)).data 0 true
      (by rw [hexprid]; exact hallstar) (by omega)
  have hcsne : (normalizeExpr (normalizeText s)).data ≠ [] := by
    rw [hexprid, hstars]
    intro hmap
    exact hne (List.map_eq_nil_iff.mp hmap)
  have htsne : ts ≠ [] := fun h => hcsne (hnilp.mpr h)
  obtain ⟨t0, ts2, hts0⟩ := List.exists_cons_of_ne_nil htsne
  have ht0 : t0 = Tok.starTok ∨ t0 = Tok.starstarTok :=
    hshape t0 (by rw [hts0]; simp)
  -- assemble the pipeline failure
  subst hts0
  show some (safeEvalExpr (normalizeText s)) = some (.error .syntaxErr)
  simp only [safeEvalExpr, pyParse, tokenize, hts, pEval_starHead t0 ts2 ht0]

/-- C9 witness: the statement instantiated at the input `"x"`. -/
theorem c9_witness :
    looksLikeMath "x" = true ∧ handleText "x" = some (.error .syntaxErr) :=
  c9_theorem "x" (by decide) (by decide)

/-! ## Machinery for claim C10: a successful parse whose tree is in the
whitelisted fragment consumed no comma token.  Commas are consumed only
when building tuples or call argument lists, and tuple and call nodes are
outside the whitelisted fragment. -/

theorem ncp_refl (toks : List Tok) : NoCommaPre toks toks :=
  ⟨[], rfl, by simp⟩

theorem ncp_cons {t : Tok} (h : t ≠ Tok.commaTok) (toks : List Tok) :
    NoCommaPre (t :: toks) toks :=
  ⟨[t], rfl, by simpa using fun hh => h hh.symm⟩

theorem ncp_trans {t1 t2 t3 : List Tok} :
    NoCommaPre t1 t2 → NoCommaPre t2 t3 → NoCommaPre t1 t3 := by
  rintro ⟨p1, h1, n1⟩ ⟨p2, h2, n2⟩
  exact ⟨p1 ++ p2, by rw [h1, h2, List.append_assoc], by simp [n1, n2]⟩

theorem okPair_inj {α β E : Type} {a t : α} {b rest : β}
    (h : (Except.ok (a, b) : Except E (α × β)) = .ok (t, rest)) :
    t = a ∧ rest = b := by
  injection h with h1
  injection h1 with ha hb
  exact ⟨ha.symm, hb.symm⟩

theorem splitComma_some {r r2 : List Tok} (h : splitComma r = some r2) :
    r = Tok.commaTok :: r2 := by
  cases r with
  | nil => simp [splitComma] at h
  | cons hd tl => cases hd <;> simp_all [splitComma]

theorem splitRparen_some {r r2 : List Tok} (h : splitRparen r = some r2) :
    r = Tok.rparenTok :: r2 := by
  cases r with
  | nil => simp [splitRparen] at h
  | cons hd tl => cases hd <;> simp_all [splitRparen]

theorem splitStarstar_some {r r2 : List Tok} (h : splitStarstar r = some r2) :
    r = Tok.starstarTok :: r2 := by
  cases r with
  | nil => simp [splitStarstar] at h
  | cons hd tl => cases hd <;> simp_all [splitStarstar]

theorem sumOp_allowed {tk : Tok} {op : BOp} (h : sumOp tk = some op) :
    allowedBinop op = true := by
  cases tk <;> simp_all [sumOp] <;> subst h <;> rfl

theorem sumOp_ne_comma {tk : Tok} {op : BOp} (h : sumOp tk = some op) :
    tk ≠ Tok.commaTok := by
  cases tk <;> simp_all [sumOp]

theorem termOp_allowed {tk : Tok} {op : BOp} (h : termOp tk = some op) :
    allowedBinop op = true := by
  cases tk <;> simp_all [termOp] <;> subst h <;> rfl

theorem termOp_ne_comma {tk : Tok} {op : BOp} (h : termOp tk = some op) :
    tk ≠ Tok.commaTok := by
  cases tk <;> simp_all [termOp]

theorem unOpOf_allowed {tk : Tok} {u : UOp} (h : unOpOf tk = some u) :
    allowedUnop u = true := by
  cases tk <;> simp_all [unOpOf] <;> subst h <;> rfl

theorem unOpOf_ne_comma {tk : Tok} {u : UOp} (h : unOpOf tk = some u) :
    tk ≠ Tok.commaTok := by
  cases tk <;> simp_all [unOpOf]

theorem atomConst_ne_comma {tk : Tok} {c : Const} (h : atomConst tk = some c) :
    tk ≠ Tok.commaTok := by
  cases tk <;> simp_all [atomConst]

theorem consTok_ok {t : Tok} {r : Except Unit (List Tok)} {ts : List Tok}
    (h : consTok t r = .ok ts) : ∃ ts2, r = .ok ts2 ∧ ts = t :: ts2 := by
  cases r with
  | error e => exact absurd h (by simp [consTok])
  | ok ts2 =>
    refine ⟨ts2, rfl, ?_⟩
    injection h with h2
    exact h2.symm

theorem comma_mem_tail {c : Char} {cs : List Char}
    (hc : ',' ∈ c :: cs) (hne : c ≠ ',') : ',' ∈ cs := by
  rcases List.mem_cons.mp hc with hh | hh
  · exact absurd hh.symm hne
  · exact hh

/-- The characters consumed by the numeric-literal lexer are digits and
dots. -/
theorem lexNumber_pre {cs : List Char} {t : Tok} {rest : List Char}
    (h : lexNumber cs = .ok (t, rest)) :
    ∃ pre, cs = pre ++ rest ∧ ∀ c ∈ pre, c.isDigit = true ∨ c = '.' := by
  unfold lexNumber at h
  dsimp only at h
  split at h
  next r2 heq =>
    obtain ⟨ht, hr⟩ := okPair_inj h
    refine ⟨cs.takeWhile Char.isDigit ++ '.' :: r2.takeWhile Char.isDigit, ?_, ?_⟩
    · rw [hr]
      conv_lhs => rw [← List.takeWhile_append_dropWhile Char.isDigit cs, heq,
        ← List.takeWhile_append_dropWhile Char.isDigit r2]
      simp [List.append_assoc]
    · intro c hcm
      rcases List.mem_append.mp hcm with h1 | h1
      · exact Or.inl (List.mem_takeWhile_imp h1)
      · rcases List.mem_cons.mp h1 with h2 | h2
        · exact Or.inr h2
        · exact Or.inl (List.mem_takeWhile_imp h2)
  next =>
    split at h
    · exact absurd h (by simp)
    · obtain ⟨ht, hr⟩ := okPair_inj h
      refine ⟨cs.takeWhile Char.isDigit, ?_, ?_⟩
      · rw [hr]; exact (List.takeWhile_append_dropWhile Char.isDigit cs).symm
      · intro c hcm; exact Or.inl (List.mem_takeWhile_imp hcm)

/-- One-step unfolding of the tokenizer on a non-empty input with fuel. -/
theorem lex_succ_cons (fuel : Nat) (c : Char) (cs : List Char) (d : Nat)
    (atStart pending : Bool) :
    lex (fuel + 1) (c :: cs) d atStart pending =
    (if c = ' ' ∨ c = '\t' then
      if d = 0 ∧ atStart then lex fuel cs d true true
      else lex fuel cs d atStart pending
    else if c = '\x0c' then
      if d = 0 ∧ atStart then lex fuel cs d true false
      else lex fuel cs d atStart pending
    else if c = '\n' ∨ c = '\r' then
      if 0 < d then lex fuel cs d atStart pending
      else if atStart then lex fuel cs d true false
      else consTok .nlTok (lex fuel cs d true false)
    else if pending ∧ d = 0 ∧ atStart then .error ()
    else if c.isDigit then
      match lexNumber (c :: cs) with
      | .error e => .error e
      | .ok (t, rest) => consTok t (lex fuel rest d false false)
    else if c = '.' then
      match cs with
      | c2 :: cs2 =>
        if c2.isDigit then
          match lexNumber (c :: cs) with
          | .error e => .error e
          | .ok (t, rest) => consTok t (lex fuel rest d false false)
        else if c2 = '.' then
          match cs2 with
          | c3 :: cs3 =>
            if c3 = '.' then consTok .ellipsisTok (lex fuel cs3 d false false)
            else .error ()
          | [] => .error ()
        else .error ()
      | [] => .error ()
    else if c = '*' then
      match cs with
      | c2 :: cs2 =>
        if c2 = '*' then consTok .starstarTok (lex fuel cs2 d false false)
        else consTok .starTok (lex fuel (c2 :: cs2) d false false)
      | [] => consTok .starTok (lex fuel [] d false false)
    else if c = '/' then
      match cs with
      | c2 :: cs2 =>
        if c2 = '/' then consTok .slashslashTok (lex fuel cs2 d false false)
        else consTok .slashTok (lex fuel (c2 :: cs2) d false false)
      | [] => consTok .slashTok (lex fuel [] d false false)
    else if c = '+' then consTok .plusTok (lex fuel cs d false false)
    else if c = '-' then consTok .minusTok (lex fuel cs d false false)
    else if c = '%' then consTok .percentTok (lex fuel cs d false false)
    else if c = '(' then consTok .lparenTok (lex fuel cs (d + 1) false false)
    else if c = ')' then consTok .rparenTok (lex fuel cs (d - 1) false false)
    else if c = ',' then consTok .commaTok (lex fuel cs d false false)
    else .error ()) := rfl

/-- If the tokenizer succeeds on input containing a comma character, the
token stream contains a comma token: no other lexing rule consumes a
comma. -/
theorem lex_comma_mem : ∀ (f : Nat) (cs : List Char) (d : Nat) (a p : Bool)
    (ts : List Tok), lex f cs d a p = .ok ts → ',' ∈ cs →
    Tok.commaTok ∈ ts := by
  intro f
  induction f with
  | zero =>
    intro cs d a p ts h hc
    cases cs with
    | nil => simp at hc
    | cons c cs2 =>
      have hz : lex 0 (c :: cs2) d a p = .error () := rfl
      rw [hz] at h
      exact absurd h (by simp)
  | succ f ih =>
    intro cs d a p ts h hc
    cases cs with
    | nil => simp at hc
    | cons c cs2 =>
      rw [lex_succ_cons] at h
      by_cases h1 : c = ' ' ∨ c = '\t'
      · rw [if_pos h1] at h
        have hcc : ',' ∈ cs2 :=
          comma_mem_tail hc (by rcases h1 with h1 | h1 <;> subst h1 <;> decide)
        split at h <;> exact ih _ _ _ _ _ h hcc
      · rw [if_neg h1] at h
        by_cases h2 : c = '\x0c'
        · rw [if_pos h2] at h
          have hcc : ',' ∈ cs2 := comma_mem_tail hc (by subst h2; decide)
          split at h <;> exact ih _ _ _ _ _ h hcc
        · rw [if_neg h2] at h
          by_cases h3 : c = '\n' ∨ c = '\r'
          · rw [if_pos h3] at h
            have hcc : ',' ∈ cs2 :=
              comma_mem_tail hc (by rcases h3 with h3 | h3 <;> subst h3 <;> decide)
            split at h
            · exact ih _ _ _ _ _ h hcc
            · split at h
              · exact ih _ _ _ _ _ h hcc
              · obtain ⟨ts2, hlex, hts⟩ := consTok_ok h
                subst hts
                exact List.mem_cons_of_mem _ (ih _ _ _ _ _ hlex hcc)
          · rw [if_neg h3] at h
            by_cases h4 : p = true ∧ d = 0 ∧ a = true
            · rw [if_pos h4] at h
              exact absurd h (by simp)
            · rw [if_neg h4] at h
              by_cases h5 : c.isDigit = true
              · rw [if_pos h5] at h
                cases hn : lexNumber (c :: cs2) with
                | error e => rw [hn] at h; exact absurd h (by simp)
                | ok pr =>
                  obtain ⟨t, rest⟩ := pr
                  rw [hn] at h
                  dsimp only at h
                  obtain ⟨ts2, hlex, hts⟩ := consTok_ok h
                  subst hts
                  obtain ⟨pre, happ, hpre⟩ := lexNumber_pre hn
                  have hrest : ',' ∈ rest := by
                    rw [happ] at hc
                    rcases List.mem_append.mp hc with hm | hm
                    · rcases hpre _ hm with hd | hd
                      · exact absurd hd (by decide)
                      · exact absurd hd (by decide)
                    · exact hm
                  exact List.mem_cons_of_mem _ (ih _ _ _ _ _ hlex hrest)
              · rw [if_neg h5] at h
                by_cases h6 : c = '.'
                · rw [if_pos h6] at h
                  cases cs2 with
                  | nil =>
                    have := comma_mem_tail hc (by subst h6; decide)
                    simp at this
                  | cons c2 cs3 =>
                    dsimp only at h
                    have hcc : ',' ∈ c2 :: cs3 :=
                      comma_mem_tail hc (by subst h6; decide)
                    by_cases h7 : c2.isDigit = true
                    · rw [if_pos h7] at h
                      cases hn : lexNumber (c :: c2 :: cs3) with
                      | error e => rw [hn] at h; exact absurd h (by simp)
                      | ok pr =>
                        obtain ⟨t, rest⟩ := pr
                        rw [hn] at h
                        dsimp only at h
                        obtain ⟨ts2, hlex, hts⟩ := consTok_ok h
                        subst hts
                        obtain ⟨pre, happ, hpre⟩ := lexNumber_pre hn
                        have hrest : ',' ∈ rest := by
                          have hc9 : ',' ∈ c :: c2 :: cs3 := by
                            exact List.mem_cons_of_mem _ hcc
                          rw [happ] at hc9
                          rcases List.mem_append.mp hc9 with hm | hm
                          · rcases hpre _ hm with hd | hd
                            · exact absurd hd (by decide)
                            · exact absurd hd (by decide)
                          · exact hm
                        exact List.mem_cons_of_mem _ (ih _ _ _ _ _ hlex hrest)
                    · rw [if_neg h7] at h
                      by_cases h8 : c2 = '.'
                      · rw [if_pos h8] at h
                        cases cs3 with
                        | nil =>
                          have := comma_mem_tail hcc (by subst h8; decide)
                          simp at this
                        | cons c3 cs4 =>
                          dsimp only at h
                          have hcc2 : ',' ∈ c3 :: cs4 :=
                            comma_mem_tail hcc (by subst h8; decide)
                          by_cases h9 : c3 = '.'
                          · rw [if_pos h9] at h
                            obtain ⟨ts2, hlex, hts⟩ := consTok_ok h
                            subst hts
                            have hcc3 : ',' ∈ cs4 :=
                              comma_mem_tail hcc2 (by subst h9; decide)
                            exact List.mem_cons_of_mem _ (ih _ _ _ _ _ hlex hcc3)
                          · rw [if_neg h9] at h
                            exact absurd h (by simp)
                      · rw [if_neg h8] at h
                        exact absurd h (by simp)
                · rw [if_neg h6] at h
                  by_cases h7 : c = '*'
                  · rw [if_pos h7] at h
                    cases cs2 with
                    | nil =>
                      have := comma_mem_tail hc (by subst h7; decide)
                      simp at this
                    | cons c2 cs3 =>
                      dsimp only at h
                      have hcc : ',' ∈ c2 :: cs3 :=
                        comma_mem_tail hc (by subst h7; decide)
                      by_cases h8 : c2 = '*'
                      · rw [if_pos h8] at h
                        obtain ⟨ts2, hlex, hts⟩ := consTok_ok h
                        subst hts
                        have hcc2 : ',' ∈ cs3 :=
                          comma_mem_tail hcc (by subst h8; decide)
                        exact List.mem_cons_of_mem _ (ih _ _ _ _ _ hlex hcc2)
                      · rw [if_neg h8] at h
                        obtain ⟨ts2, hlex, hts⟩ := consTok_ok h
                        subst hts
                        exact List.mem_cons_of_mem _ (ih _ _ _ _ _ hlex hcc)
                  · rw [if_neg h7] at h
                    by_cases h8 : c = '/'
                    · rw [if_pos h8] at h
                      cases cs2 with
                      | nil =>
                        have := comma_mem_tail hc (by subst h8; decide)
                        simp at this
                      | cons c2 cs3 =>
                        dsimp only at h
                        have hcc : ',' ∈ c2 :: cs3 :=
                          comma_mem_tail hc (by subst h8; decide)
                        by_cases h9 : c2 = '/'
                        · rw [if_pos h9] at h
                          obtain ⟨ts2, hlex, hts⟩ := consTok_ok h
                          subst hts
                          have hcc2 : ',' ∈ cs3 :=
                            comma_mem_tail hcc (by subst h9; decide)
                          exact List.mem_cons_of_mem _ (ih _ _ _ _ _ hlex hcc2)
                        · rw [if_neg h9] at h
                          obtain ⟨ts2, hlex, hts⟩ := consTok_ok h
                          subst hts
                          exact List.mem_cons_of_mem _ (ih _ _ _ _ _ hlex hcc)
                    · rw [if_neg h8] at h
                      by_cases h9 : c = '+'
                      · rw [if_pos h9] at h
                        obtain ⟨ts2, hlex, hts⟩ := consTok_ok h
                        subst hts
                        have hcc : ',' ∈ cs2 :=
                          comma_mem_tail hc (by subst h9; decide)
                        exact List.mem_cons_of_mem _ (ih _ _ _ _ _ hlex hcc)
                      · rw [if_neg h9] at h
                        by_cases h10 : c = '-'
                        · rw [if_pos h10] at h
                          obtain ⟨ts2, hlex, hts⟩ := consTok_ok h
                          subst hts
                          have hcc : ',' ∈ cs2 :=
                            comma_mem_tail hc (by subst h10; decide)
                          exact List.mem_cons_of_mem _ (ih _ _ _ _ _ hlex hcc)
                        · rw [if_neg h10] at h
                          by_cases h11 : c = '%'
                          · rw [if_pos h11] at h
                            obtain ⟨ts2, hlex, hts⟩ := consTok_ok h
                            subst hts
                            have hcc : ',' ∈ cs2 :=
                              comma_mem_tail hc (by subst h11; decide)
                            exact List.mem_cons_of_mem _ (ih _ _ _ _ _ hlex hcc)
                          · rw [if_neg h11] at h
                            by_cases h12 : c = '('
                            · rw [if_pos h12] at h
                              obtain ⟨ts2, hlex, hts⟩ := consTok_ok h
                              subst hts
                              have hcc : ',' ∈ cs2 :=
                                comma_mem_tail hc (by subst h12; decide)
                              exact List.mem_cons_of_mem _ (ih _ _ _ _ _ hlex hcc)
                            · rw [if_neg h12] at h
                              by_cases h13 : c = ')'
                              · rw [if_pos h13] at h
                                obtain ⟨ts2, hlex, hts⟩ := consTok_ok h
                                subst hts
                                have hcc : ',' ∈ cs2 :=
                                  comma_mem_tail hc (by subst h13; decide)
                                exact List.mem_cons_of_mem _ (ih _ _ _ _ _ hlex hcc)
                              · rw [if_neg h13] at h
                                by_cases h14 : c = ','
                                · rw [if_pos h14] at h
                                  obtain ⟨ts2, hlex, hts⟩ := consTok_ok h
                                  subst hts
                                  exact List.mem_cons_self _ _
                                · rw [if_neg h14] at h
                                  exact absurd h (by simp)

theorem parserNC : ∀ f, ParserNC f := by
  intro f
  induction f with
  | zero =>
    refine ⟨?_, ?_, ?_, ?_, ?_, ?_, ?_, ?_, ?_, ?_, ?_⟩
    · intro toks t rest h; exact absurd h (by simp [pTestlist])
    · intro acc toks t rest h; exact absurd h (by simp [pTestlistRest])
    · intro toks t rest h; exact absurd h (by simp [pSum])
    · intro acc toks t rest h; exact absurd h (by simp [pSumRest])
    · intro toks t rest h; exact absurd h (by simp [pTerm])
    · intro acc toks t rest h; exact absurd h (by simp [pTermRest])
    · intro toks t rest h; exact absurd h (by simp [pFactor])
    · intro toks t rest h; exact absurd h (by simp [pPower])
    · intro toks t rest h; exact absurd h (by simp [pPrimary])
    · intro t0 toks t rest h; exact absurd h (by simp [pTrailers])
    · intro toks t rest h; exact absurd h (by simp [pAtom])
  | succ f ih =>
    obtain ⟨ihTL, ihTLR, ihSU, ihSUR, ihTE, ihTER, ihFA, ihPO, ihPR, ihTR, ihAT⟩ := ih
    refine ⟨?_, ?_, ?_, ?_, ?_, ?_, ?_, ?_, ?_, ?_, ?_⟩
    -- pTestlist
    · intro toks t rest h hp
      simp only [pTestlist] at h
      cases hsum : pSum f toks with
      | error e => rw [hsum] at h; exact absurd h (by simp)
      | ok pr =>
        obtain ⟨t1, r1⟩ := pr
        rw [hsum] at h
        dsimp only at h
        cases hsc : splitComma r1 with
        | some r2 =>
          rw [hsc] at h
          obtain ⟨es, hes⟩ := ihTLR _ _ _ _ h
          subst hes
          exact absurd hp (by simp [pureArith])
        | none =>
          rw [hsc] at h
          obtain ⟨ht, hr⟩ := okPair_inj h
          subst ht; subst hr
          exact ihSU _ _ _ hsum hp
    -- pTestlistRest always builds a tuple
    · intro acc toks t rest h
      simp only [pTestlistRest] at h
      by_cases hend : testlistEnd toks = true
      · rw [if_pos hend] at h
        exact ⟨acc.reverse, (okPair_inj h).1⟩
      · rw [if_neg hend] at h
        cases hsum : pSum f toks with
        | error e => rw [hsum] at h; exact absurd h (by simp)
        | ok pr =>
          obtain ⟨t1, r1⟩ := pr
          rw [hsum] at h
          dsimp only at h
          cases hsc : splitComma r1 with
          | some r2 => rw [hsc] at h; exact ihTLR _ _ _ _ h
          | none => rw [hsc] at h; exact ⟨_, (okPair_inj h).1⟩
    -- pSum
    · intro toks t rest h hp
      simp only [pSum] at h
      cases hterm : pTerm f toks with
      | error e => rw [hterm] at h; exact absurd h (by simp)
      | ok pr =>
        obtain ⟨t1, r1⟩ := pr
        rw [hterm] at h
        obtain ⟨hpt1, hncp⟩ := ihSUR _ _ _ _ h hp
        exact ncp_trans (ihTE _ _ _ hterm hpt1) hncp
    -- pSumRest
    · intro acc toks t rest h hp
      simp only [pSumRest] at h
      cases toks with
      | nil =>
        obtain ⟨ht, hr⟩ := okPair_inj h
        subst ht; subst hr
        exact ⟨hp, ncp_refl _⟩
      | cons tk r =>
        dsimp only at h
        cases hop : sumOp tk with
        | none =>
          rw [hop] at h
          obtain ⟨ht, hr⟩ := okPair_inj h
          subst ht; subst hr
          exact ⟨hp, ncp_refl _⟩
        | some op =>
          rw [hop] at h
          dsimp only at h
          cases hterm : pTerm f r with
          | error e => rw [hterm] at h; exact absurd h (by simp)
          | ok pr2 =>
            obtain ⟨t2, r2⟩ := pr2
            rw [hterm] at h
            obtain ⟨hpacc2, hncp2⟩ := ihSUR _ _ _ _ h hp
            have hall := sumOp_allowed hop
            have hsplit : pureArith acc = true ∧ pureArith t2 = true := by
              simpa [pureArith, hall] using hpacc2
            have hn1 := ihTE _ _ _ hterm hsplit.2
            exact ⟨hsplit.1,
              ncp_trans (ncp_cons (sumOp_ne_comma hop) _) (ncp_trans hn1 hncp2)⟩
    -- pTerm
    · intro toks t rest h hp
      simp only [pTerm] at h
      cases hfac : pFactor f toks with
      | error e => rw [hfac] at h; exact absurd h (by simp)
      | ok pr =>
        obtain ⟨t1, r1⟩ := pr
        rw [hfac] at h
        obtain ⟨hpt1, hncp⟩ := ihTER _ _ _ _ h hp
        exact ncp_trans (ihFA _ _ _ hfac hpt1) hncp
    -- pTermRest
    · intro acc toks t rest h hp
      simp only [pTermRest] at h
      cases toks with
      | nil =>
        obtain ⟨ht, hr⟩ := okPair_inj h
        subst ht; subst hr
        exact ⟨hp, ncp_refl _⟩
      | cons tk r =>
        dsimp only at h
        cases hop : termOp tk with
        | none =>
          rw [hop] at h
          obtain ⟨ht, hr⟩ := okPair_inj h
          subst ht; subst hr
          exact ⟨hp, ncp_refl _⟩
        | some op =>
          rw [hop] at h
          dsimp only at h
          cases hfac : pFactor f r with
          | error e => rw [hfac] at h; exact absurd h (by simp)
          | ok pr2 =>
            obtain ⟨t2, r2⟩ := pr2
            rw [hfac] at h
            obtain ⟨hpacc2, hncp2⟩ := ihTER _ _ _ _ h hp
            have hall := termOp_allowed hop
            have hsplit : pureArith acc = true ∧ pureArith t2 = true := by
              simpa [pureArith, hall] using hpacc2
            have hn1 := ihFA _ _ _ hfac hsplit.2
            exact ⟨hsplit.1,
              ncp_trans (ncp_cons (termOp_ne_comma hop) _) (ncp_trans hn1 hncp2)⟩
    -- pFactor
    · intro toks t rest h hp
      simp only [pFactor] at h
      cases toks with
      | nil => exact ihPO _ _ _ h hp
      | cons tk r =>
        dsimp only at h
        cases hu : unOpOf tk with
        | none => rw [hu] at h; exact ihPO _ _ _ h hp
        | some u =>
          rw [hu] at h
          dsimp only at h
          cases hfac : pFactor f r with
          | error e => rw [hfac] at h; exact absurd h (by simp)
          | ok pr2 =>
            obtain ⟨t1, r2⟩ := pr2
            rw [hfac] at h
            obtain ⟨ht, hr⟩ := okPair_inj h
            subst ht; subst hr
            have hau := unOpOf_allowed hu
            have hpt1 : pureArith t1 = true := by
              simpa [pureArith, hau] using hp
            exact ncp_trans (ncp_cons (unOpOf_ne_comma hu) _) (ihFA _ _ _ hfac hpt1)
    -- pPower
    · intro toks t rest h hp
      simp only [pPower] at h
      cases hpr : pPrimary f toks with
      | error e => rw [hpr] at h; exact absurd h (by simp)
      | ok pr =>
        obtain ⟨b, r⟩ := pr
        rw [hpr] at h
        dsimp only at h
        cases hss : splitStarstar r with
        | none =>
          rw [hss] at h
          obtain ⟨ht, hr⟩ := okPair_inj h
          subst ht; subst hr
          exact ihPR _ _ _ hpr hp
        | some r2 =>
          rw [hss] at h
          dsimp only at h
          cases hfac : pFactor f r2 with
          | error e => rw [hfac] at h; exact absurd h (by simp)
          | ok pr2 =>
            obtain ⟨e2, r3⟩ := pr2
            rw [hfac] at h
            obtain ⟨ht, hr⟩ := okPair_inj h
            subst ht; subst hr
            have hsplit : pureArith b = true ∧ pureArith e2 = true := by
              simpa [pureArith, allowedBinop] using hp
            have hmid : NoCommaPre r r2 :=
              splitStarstar_some hss ▸ ncp_cons (by simp) r2
            exact ncp_trans (ihPR _ _ _ hpr hsplit.1)
              (ncp_trans hmid (ihFA _ _ _ hfac hsplit.2))
    -- pPrimary
    · intro toks t rest h hp
      simp only [pPrimary] at h
      cases hat : pAtom f toks with
      | error e => rw [hat] at h; exact absurd h (by simp)
      | ok pr =>
        obtain ⟨a, r⟩ := pr
        rw [hat] at h
        obtain ⟨hta, hrr⟩ := ihTR _ _ _ _ h hp
        subst hta; subst hrr
        exact ihAT _ _ _ hat hp
    -- pTrailers
    · intro t0 toks t rest h hp
      simp only [pTrailers] at h
      cases hsl : splitLparen toks with
      | none => rw [hsl] at h; exact okPair_inj h
      | some r =>
        rw [hsl] at h
        dsimp only at h
        cases hsr : splitRparen r with
        | some r2 =>
          rw [hsr] at h
          obtain ⟨hteq, _⟩ := ihTR _ _ _ _ h hp
          subst hteq
          exact absurd hp (by simp [pureArith])
        | none =>
          rw [hsr] at h
          dsimp only at h
          cases hargs : pArgs f r with
          | error e => rw [hargs] at h; exact absurd h (by simp)
          | ok pr2 =>
            obtain ⟨args, r2⟩ := pr2
            rw [hargs] at h
            dsimp only at h
            cases hsr2 : splitRparen r2 with
            | none => rw [hsr2] at h; exact absurd h (by simp)
            | some r3 =>
              rw [hsr2] at h
              obtain ⟨hteq, _⟩ := ihTR _ _ _ _ h hp
              subst hteq
              exact absurd hp (by simp [pureArith])
    -- pAtom
    · intro toks t rest h hp
      simp only [pAtom] at h
      cases toks with
      | nil => exact absurd h (by simp)
      | cons tk r =>
        dsimp only at h
        cases hac : atomConst tk with
        | some c =>
          rw [hac] at h
          obtain ⟨ht, hr⟩ := okPair_inj h
          subst ht; subst hr
          exact ncp_cons (atomConst_ne_comma hac) _
        | none =>
          rw [hac] at h
          dsimp only at h
          by_cases hlp : tk = Tok.lparenTok
          · rw [if_pos hlp] at h
            subst hlp
            cases hsr : splitRparen r with
            | some r2 =>
              rw [hsr] at h
              obtain ⟨ht, _⟩ := okPair_inj h
              subst ht
              exact absurd hp (by simp [pureArith])
            | none =>
              rw [hsr] at h
              dsimp only at h
              cases htl : pTestlist f r with
              | error e => rw [htl] at h; exact absurd h (by simp)
              | ok pr2 =>
                obtain ⟨t1, r2⟩ := pr2
                rw [htl] at h
                dsimp only at h
                cases hsr2 : splitRparen r2 with
                | none => rw [hsr2] at h; exact absurd h (by simp)
                | some r3 =>
                  rw [hsr2] at h
                  obtain ⟨ht, hr⟩ := okPair_inj h
                  subst ht
                  have h1 := ihTL _ _ _ htl hp
                  have h2 : NoCommaPre r2 rest := by
                    rw [splitRparen_some hsr2, hr]
                    exact ncp_cons (by simp) _
                  exact ncp_trans (ncp_cons (by simp) _) (ncp_trans h1 h2)
          · rw [if_neg hlp] at h
            exact absurd h (by simp)

theorem mem_dropWhile_of_not {p : Char → Bool} {c : Char} (hc : p c = false) :
    ∀ l : List Char, c ∈ l → c ∈ l.dropWhile p := by
  intro l
  induction l with
  | nil => simp
  | cons hd tl ih =>
    intro hmem
    by_cases hp : p hd = true
    · rw [List.dropWhile_cons, if_pos hp]
      rcases List.mem_cons.mp hmem with h | h
      · subst h; rw [hp] at hc; exact absurd hc (by simp)
      · exact ih h
    · rw [List.dropWhile_cons, if_neg hp]
      exact hmem

theorem mem_pyStrip {s : String} {c : Char} (hc : pyIsSpace c = false)
    (h : c ∈ s.data) : c ∈ (pyStrip s).data := by
  show c ∈ ((s.data.dropWhile pyIsSpace).reverse.dropWhile pyIsSpace).reverse
  rw [List.mem_reverse]
  apply mem_dropWhile_of_not hc
  rw [List.mem_reverse]
  exact mem_dropWhile_of_not hc _ h

theorem comma_mem_normalizeText {s : String} (h : ',' ∈ s.data) :
    ',' ∈ (normalizeText s).data := by
  show ',' ∈ s.data.flatMap normTextChar
  exact List.mem_flatMap.mpr ⟨',', h, by decide⟩

theorem comma_mem_normalizeExpr {s : String} (h : ',' ∈ s.data) :
    ',' ∈ (normalizeExpr s).data := by
  show ',' ∈ s.data.map normExprChar
  exact List.mem_map.mpr ⟨',', h, by decide⟩

theorem tokenize_comma {cs : List Char} {ts : List Tok}
    (h : tokenize cs = .ok ts) (hc : ',' ∈ cs) : Tok.commaTok ∈ ts :=
  lex_comma_mem _ _ _ _ _ _ h hc

/-! ## Claim C10 -/

/-- C10 — counterexample to the claim's mechanism as stated.  A comma in
a classifier-accepted input need not produce a tuple expression or a
syntax error: in `"1(2,3)+1"` the commas form a call argument list, the
parse succeeds, and the resulting tree contains no tuple node at all; the
input still fails, but with the UnsupportedConstructError kind for the
call node. -/
theorem c10_counterexample :
    pyParse "1(2,3)+1"
        = .ok (.binop .add
            (.call (.const (.cint 1)) [.const (.cint 2), .const (.cint 3)])
            (.const (.cint 1)))
    ∧ containsTuple (.binop .add
        (.call (.const (.cint 1)) [.const (.cint 2), .const (.cint 3)])
        (.const (.cint 1))) = false
    ∧ (',' ∈ ("1(2,3)+1" : String).data)
    ∧ handleText "1(2,3)+1" = some (.error .unsupported)
    ∧ EvalErr.unsupported ≠ EvalErr.syntaxErr :=
  ⟨rfl, by decide, by decide, by decide, by decide⟩

/-- C10 — amended (the headline property holds).  No classifier-accepted
input containing a comma character ever evaluates to a numeric result:
under the restricted character set a comma can only be consumed while
building a tuple display or a call argument list — both rejected by the
evaluator — or the parse fails, so every such input fails. -/
theorem c10_theorem :
    ∀ (s : String) (v : PyVal), ',' ∈ s.data → handleText s ≠ some (.ok v) := by
  intro s v hcomma h
  rw [handleText] at h
  by_cases hcl : looksLikeMath (pyStrip s) = true
  · rw [if_pos hcl] at h
    injection h with h
    simp only [safeEvalExpr] at h
    have hc2 : ',' ∈ (normalizeExpr (normalizeText (pyStrip s))).data :=
      comma_mem_normalizeExpr (comma_mem_normalizeText (mem_pyStrip (by decide) hcomma))
    cases hpp : pyParse (normalizeExpr (normalizeText (pyStrip s))) with
    | error e => rw [hpp] at h; exact absurd h (by simp)
    | ok tree =>
      rw [hpp] at h
      have hpure := evalAst_ok_imp_pure tree v h
      simp only [pyParse] at hpp
      cases htk : tokenize (normalizeExpr (normalizeText (pyStrip s))).data with
      | error e => rw [htk] at hpp; exact absurd hpp (by simp)
      | ok toks =>
        rw [htk] at hpp
        dsimp only at hpp
        cases hpe : pEval toks with
        | error e => rw [hpe] at hpp; exact absurd hpp (by simp)
        | ok t2 =>
          rw [hpe] at hpp
          have ht2 : t2 = tree := by injection hpp
          subst ht2
          simp only [pEval] at hpe
          cases hts : pTestlist (10 * toks.length + 10) toks with
          | error e => rw [hts] at hpe; exact absurd hpe (by simp)
          | ok pr =>
            obtain ⟨t3, rest⟩ := pr
            rw [hts] at hpe
            dsimp only at hpe
            by_cases hall : rest.all (· == Tok.nlTok) = true
            · rw [if_pos hall] at hpe
              have ht3 : t3 = t2 := by injection hpe
              subst ht3
              obtain ⟨pre, happ, hnc⟩ := (parserNC _).1 _ _ _ hts hpure
              have hctoks : Tok.commaTok ∈ toks := tokenize_comma htk hc2
              rw [happ] at hctoks
              rcases List.mem_append.mp hctoks with hmem | hmem
              · exact hnc hmem
              · have := List.all_eq_true.mp hall _ hmem
                exact absurd this (by decide)
            · rw [if_neg hall] at hpe
              exact absurd hpe (by simp)
  · rw [if_neg hcl] at h
    exact absurd h (by simp)

/-- C10 witness: the statement instantiated at the input `"1,2"`. -/
theorem c10_witness : handleText "1,2" ≠ some (.ok (.vint 3)) :=
  c10_theorem "1,2" (.vint 3) (by decide)

end QRBot
